import Mathlib

set_option maxRecDepth 100000

/-!
Verification of the AgriMarket AI farming-plan subsystem.

This file embeds, in Lean, the farming-plan generation pipeline of the
AgriMarket repository:

* `src/services/aiService.js` — `cleanText`, `safeJsonParse`,
  `extractJsonObject`, `buildFallbackPlan`, `normalizeStructuredPlan`, and the
  model-fallback loop of `generateFarmingPlan`;
* `src/screens/farmer/PlantScreen.js` — `sanitizePlainText`,
  `extractLikelyJson`, `parseStructuredPlan`, `parsePlanSections`, and the
  walkthrough state machine (`toggleCurrentTask`, `completeAndAdvance`,
  `goToTask`, reset, `boundedTaskIdx`, `progressPercent`).

Strings are embedded as `List Char`.  JavaScript numbers are embedded exactly:
JSON numeric literals as a mantissa with a count of decimal places
(`JNum`, value `m / 10 ^ e`), and arbitrary numeric context inputs (the farm
area) as rationals.  The platform built-ins `JSON.parse` and `JSON.stringify`
are embedded as an executable fuel-based parser and renderer over the same
JSON value type, with the parse-of-render inverse theorem proved below (the
fuel is two characters' worth per rendered character, which the needed-fuel
bounds show is enough).
-/

namespace AgriMarket

/-! ## JavaScript character classes -/

/-- The whitespace class of JavaScript's `\s` (and of `String.prototype.trim`):
ASCII blanks, NBSP, the Unicode space separators, line separators and BOM. -/
def isJsSpace (c : Char) : Bool :=
  c == ' ' || c == '\t' || c == '\n' || c == '\r' || c == '\x0b' || c == '\x0c' ||
  c.toNat == 0xa0 || c.toNat == 0x1680 ||
  (0x2000 ≤ c.toNat && c.toNat ≤ 0x200a) ||
  c.toNat == 0x2028 || c.toNat == 0x2029 || c.toNat == 0x202f ||
  c.toNat == 0x205f || c.toNat == 0x3000 || c.toNat == 0xfeff

/-- An ASCII decimal digit (JavaScript's `\d`, and the JSON digit class). -/
def isDigitCh (c : Char) : Bool := '0' ≤ c && c ≤ '9'

/-- JavaScript `String.prototype.trim`: drop `\s` characters from the front. -/
def dropJsSpace : List Char → List Char
  | c :: cs => if isJsSpace c then dropJsSpace cs else c :: cs
  | [] => []

/-- Drop trailing `\s` characters (the right half of `trim`). -/
def trimEnd : List Char → List Char
  | [] => []
  | c :: cs =>
    let t := trimEnd cs
    if t.isEmpty && isJsSpace c then [] else c :: t

/-- JavaScript `String.prototype.trim`. -/
def jsTrim (s : List Char) : List Char := trimEnd (dropJsSpace s)

/-! ## JSON values

`JNum` is a JSON numeric literal held exactly: mantissa `m` with `e` decimal
places, denoting `m / 10 ^ e`.  `JSON.stringify` of the numbers this
development produces renders that decimal form directly, so value equality of
`JNum` is representation equality and the parse/render pair below is an exact
inverse with no float rounding. -/

structure JNum where
  m : Int
  e : Nat
deriving DecidableEq, Repr

/-- The rational a `JNum` denotes. -/
def JNum.toQ (n : JNum) : ℚ := (n.m : ℚ) / (10 : ℚ) ^ n.e

mutual
/-- A JSON value. Arrays and objects use the mutual list types `JArr`/`JObj`
(duplicate object keys are kept in order; lookup below takes the last, as
`JSON.parse` does). -/
inductive Json where
  | null
  | bool (b : Bool)
  | num (n : JNum)
  | str (s : List Char)
  | arr (xs : JArr)
  | obj (xs : JObj)
deriving DecidableEq, Repr

inductive JArr where
  | nil
  | cons (hd : Json) (tl : JArr)
deriving DecidableEq, Repr

inductive JObj where
  | nil
  | cons (key : List Char) (val : Json) (tl : JObj)
deriving DecidableEq, Repr
end

def JArr.toList : JArr → List Json
  | .nil => []
  | .cons v t => v :: t.toList

def JArr.ofList : List Json → JArr
  | [] => .nil
  | v :: t => .cons v (JArr.ofList t)

def JArr.length (xs : JArr) : Nat := xs.toList.length

/-- JavaScript truthiness of a JSON value (`NaN` cannot appear: `JSON.parse`
yields no `NaN`). -/
def jsTruthy : Json → Bool
  | .null => false
  | .bool b => b
  | .num n => n.m != 0
  | .str s => !s.isEmpty
  | .arr _ => true
  | .obj _ => true

/-- JavaScript property access `v.key` / `v?.key` for the properties this code
reads: on an object the *last* binding of the key (as `JSON.parse` keeps for
duplicate keys), `none` (undefined) on every other value.  (`null.key` would
throw, but every access in the embedded code is either behind a truthiness
guard or optional chaining, so `none` is faithful there too.) -/
def jsGet : Json → List Char → Option Json
  | .obj ms, key => jsGetObj ms key
  | _, _ => none
where
  jsGetObj : JObj → List Char → Option Json
    | .nil, _ => none
    | .cons k v t, key => match jsGetObj t key with
      | some w => some w
      | none => if k = key then some v else none

/-- Optional-chained access `a?.b` starting from a possibly-undefined value. -/
def jsGetOpt (v : Option Json) (key : List Char) : Option Json :=
  match v with
  | none => none
  | some j => jsGet j key

/-! ## `JSON.parse`, embedded

A total, executable recursive-descent parser over `List Char`, strict like
`JSON.parse`: no trailing commas, no leading zeros, at least one digit in a
fraction and exponent, no raw control characters in strings, only space, tab,
LF and CR as interelement whitespace.  Recursion is on an explicit fuel,
decremented at every entry of the three mutual functions; parsing a value
never takes more than two fuel per remaining character, so the wrapper's
fuel of `2 * length + 2` never runs out before the input does. -/

/-- JSON interelement whitespace (`JSON.parse` accepts exactly these four). -/
def isJsonWs (c : Char) : Bool := c == ' ' || c == '\t' || c == '\n' || c == '\r'

def skipJsonWs : List Char → List Char
  | c :: cs => if isJsonWs c then skipJsonWs cs else c :: cs
  | [] => []

/-- Longest digit run at the front of the input. -/
def spanDigits : List Char → List Char × List Char
  | c :: cs =>
    if isDigitCh c then
      let p := spanDigits cs
      (c :: p.1, p.2)
    else ([], c :: cs)
  | [] => ([], [])

/-- Numeric value of a digit-character run, most significant first. -/
def digitsVal (ds : List Char) : Nat :=
  ds.foldl (fun acc c => acc * 10 + (c.toNat - 48)) 0

def hexDigitVal (c : Char) : Option Nat :=
  if '0' ≤ c && c ≤ '9' then some (c.toNat - 48)
  else if 'a' ≤ c && c ≤ 'f' then some (c.toNat - 87)
  else if 'A' ≤ c && c ≤ 'F' then some (c.toNat - 55)
  else none

/-- The characters of a JSON string body after the opening quote, with the
escapes `JSON.parse` accepts; raw control characters are rejected. -/
def parseJStr (acc : List Char) : List Char → Option (List Char × List Char)
  | '"' :: r => some (acc.reverse, r)
  | '\\' :: 'u' :: a :: b :: c :: d :: r =>
    match hexDigitVal a, hexDigitVal b, hexDigitVal c, hexDigitVal d with
    | some va, some vb, some vc, some vd =>
      parseJStr (Char.ofNat (((va * 16 + vb) * 16 + vc) * 16 + vd) :: acc) r
    | _, _, _, _ => none
  | '\\' :: e :: r =>
    (match e with
     | '"' => some '"'
     | '\\' => some '\\'
     | '/' => some '/'
     | 'b' => some '\x08'
     | 'f' => some '\x0c'
     | 'n' => some '\n'
     | 'r' => some '\r'
     | 't' => some '\t'
     | _ => none).bind fun ch => parseJStr (ch :: acc) r
  | c :: r => if c.toNat < 0x20 then none else parseJStr (c :: acc) r
  | [] => none

/-- The part of a JSON numeric literal after an optional minus sign: integer
part with no leading zero, optional fraction and exponent; yields the exact
decimal value as a `JNum`. -/
def parseJNumAfterSign (neg : Bool) (cs : List Char) : Option (JNum × List Char) :=
  let intp := spanDigits cs
  if intp.1.isEmpty then none
  else if intp.1.head? = some '0' && intp.1.length != 1 then none
  else
    let frac : Option (List Char × List Char) := match intp.2 with
      | '.' :: r =>
        let p := spanDigits r
        if p.1.isEmpty then none else some p
      | r => some ([], r)
    match frac with
    | none => none
    | some (fds, r2) =>
      let expo : Option (Int × List Char) := match r2 with
        | 'e' :: r3 | 'E' :: r3 =>
          let es : Bool × List Char := match r3 with
            | '+' :: r4 => (false, r4)
            | '-' :: r4 => (true, r4)
            | r4 => (false, r4)
          let p := spanDigits es.2
          if p.1.isEmpty then none
          else some ((if es.1 then -(digitsVal p.1 : Int) else (digitsVal p.1 : Int)), p.2)
        | r3 => some (0, r3)
      match expo with
      | none => none
      | some (ex, r3) =>
        let mag : Int := (digitsVal (intp.1 ++ fds) : Int)
        let m : Int := if neg then -mag else mag
        let eAdj : Int := (fds.length : Int) - ex
        if eAdj ≤ 0 then some (⟨m * 10 ^ (-eAdj).toNat, 0⟩, r3)
        else some (⟨m, eAdj.toNat⟩, r3)

/-- A JSON numeric literal: optional minus sign, then `parseJNumAfterSign`. -/
def parseJNum (cs : List Char) : Option (JNum × List Char) :=
  match cs with
  | '-' :: r => parseJNumAfterSign true r
  | _ => parseJNumAfterSign false cs

mutual
/-- One JSON value (fuel-based; `skipJsonWs` first, then dispatch on the head
character exactly as the JSON grammar does). -/
def parseJVal : Nat → List Char → Option (Json × List Char)
  | 0, _ => none
  | f + 1, cs =>
    match skipJsonWs cs with
    | 'n' :: 'u' :: 'l' :: 'l' :: r => some (.null, r)
    | 't' :: 'r' :: 'u' :: 'e' :: r => some (.bool true, r)
    | 'f' :: 'a' :: 'l' :: 's' :: 'e' :: r => some (.bool false, r)
    | '"' :: r => (parseJStr [] r).map fun p => (.str p.1, p.2)
    | '[' :: r =>
      (match skipJsonWs r with
       | ']' :: r2 => some (.arr .nil, r2)
       | r2 => (parseJItems f r2).map fun p => (.arr p.1, p.2))
    | '{' :: r =>
      (match skipJsonWs r with
       | '}' :: r2 => some (.obj .nil, r2)
       | r2 => (parseJMembers f r2).map fun p => (.obj p.1, p.2))
    | c :: r =>
      if c == '-' || isDigitCh c then (parseJNum (c :: r)).map fun p => (.num p.1, p.2)
      else none
    | [] => none

/-- One or more comma-separated array elements, through the closing bracket. -/
def parseJItems : Nat → List Char → Option (JArr × List Char)
  | 0, _ => none
  | f + 1, cs =>
    match parseJVal f cs with
    | none => none
    | some (v, r) =>
      match skipJsonWs r with
      | ',' :: r2 =>
        (parseJItems f r2).map fun p => (.cons v p.1, p.2)
      | ']' :: r2 => some (.cons v .nil, r2)
      | _ => none

/-- One or more comma-separated object members, through the closing brace. -/
def parseJMembers : Nat → List Char → Option (JObj × List Char)
  | 0, _ => none
  | f + 1, cs =>
    match skipJsonWs cs with
    | '"' :: r =>
      match parseJStr [] r with
      | none => none
      | some (key, r1) =>
        match skipJsonWs r1 with
        | ':' :: r2 =>
          match parseJVal f r2 with
          | none => none
          | some (v, r3) =>
            match skipJsonWs r3 with
            | ',' :: r4 => (parseJMembers f r4).map fun p => (.cons key v p.1, p.2)
            | '}' :: r4 => some (.cons key v .nil, r4)
            | _ => none
        | _ => none
    | _ => none
end

/-- `JSON.parse` on a whole text: one value, then only whitespace. `none` is a
thrown `SyntaxError`. -/
def jsonParse (s : List Char) : Option Json :=
  match parseJVal (2 * s.length + 2) s with
  | some (v, r) => if (skipJsonWs r).isEmpty then some v else none
  | none => none

/-! ## `JSON.stringify`, embedded -/

/-- Little-endian decimal digits of `n` (fuel-based so the kernel evaluates
it; `fuel ≥ n` always suffices because the argument at least halves). -/
def natDigitsRev (fuel n : Nat) : List Nat :=
  match fuel with
  | 0 => []
  | f + 1 => if n = 0 then [] else n % 10 :: natDigitsRev f (n / 10)

/-- Decimal digit characters of `n`, most significant first; `"0"` for zero. -/
def natChars (n : Nat) : List Char :=
  if n = 0 then ['0']
  else ((natDigitsRev n n).map fun d => Char.ofNat (48 + d)).reverse

/-- The digits of the mantissa's absolute value `a`, zero-padded so the
integer part is never empty, with a decimal point `e` places from the right
when `e ≠ 0`. -/
def renderJNumBody (a e : Nat) : List Char :=
  let ds := natChars a
  let pad := if ds.length < e + 1 then List.replicate (e + 1 - ds.length) '0' ++ ds else ds
  if e = 0 then pad
  else pad.take (pad.length - e) ++ '.' :: pad.drop (pad.length - e)

/-- `String(number)` / `JSON.stringify` of a `JNum`: sign, then the mantissa's
digits in decimal-point form. -/
def renderJNum (n : JNum) : List Char :=
  (if n.m < 0 then ['-'] else []) ++ renderJNumBody n.m.natAbs n.e

/-- One string character as `JSON.stringify` emits it: `\"` and `\\`, the
short control escapes, `\u00xx` for other control characters, the character
itself otherwise. -/
def escapeJChar (c : Char) : List Char :=
  if c = '"' then ['\\', '"']
  else if c = '\\' then ['\\', '\\']
  else if c = '\x08' then ['\\', 'b']
  else if c = '\t' then ['\\', 't']
  else if c = '\n' then ['\\', 'n']
  else if c = '\x0c' then ['\\', 'f']
  else if c = '\r' then ['\\', 'r']
  else if c.toNat < 0x20 then
    ['\\', 'u', '0', '0',
     (if c.toNat / 16 < 10 then Char.ofNat (48 + c.toNat / 16) else Char.ofNat (87 + c.toNat / 16)),
     (if c.toNat % 16 < 10 then Char.ofNat (48 + c.toNat % 16) else Char.ofNat (87 + c.toNat % 16))]
  else [c]

/-- A JSON string literal as `JSON.stringify` emits it. -/
def renderJStr (s : List Char) : List Char :=
  '"' :: (s.flatMap escapeJChar ++ ['"'])

mutual
/-- `JSON.stringify` (no indentation: objects and arrays are rendered with no
whitespace, members in order). -/
def renderJson : Json → List Char
  | .null => "null".toList
  | .bool true => "true".toList
  | .bool false => "false".toList
  | .num n => renderJNum n
  | .str s => renderJStr s
  | .arr xs => '\x5b' :: (renderJItems xs ++ ['\x5d'])
  | .obj xs => '\x7b' :: (renderJMembers xs ++ ['\x7d'])

def renderJItems : JArr → List Char
  | .nil => []
  | .cons v .nil => renderJson v
  | .cons v (.cons w t) => renderJson v ++ ',' :: renderJItems (.cons w t)

def renderJMembers : JObj → List Char
  | .nil => []
  | .cons k v .nil => renderJStr k ++ ':' :: renderJson v
  | .cons k v (.cons k2 w t) =>
    renderJStr k ++ ':' :: renderJson v ++ ',' :: renderJMembers (.cons k2 w t)
end

/-! ## Text sanitization (`cleanText` of aiService.js; `sanitizePlainText` of
PlantScreen.js is character-for-character the same function) -/

/-- ASCII lower-casing (`String.prototype.toLowerCase`; every string the
embedded code lowercases has already been sanitized to printable ASCII). -/
def lowerCh (c : Char) : Char :=
  if 'A' ≤ c && c ≤ 'Z' then Char.ofNat (c.toNat + 32) else c

/-- Does the input start with `pat` (pattern given lowercase), comparing the
input case-insensitively? -/
def startsLowerEq : List Char → List Char → Bool
  | [], _ => true
  | _ :: _, [] => false
  | p :: ps, c :: cs => lowerCh c == p && startsLowerEq ps cs

/-- The recursion of `stripFenceJson`, on explicit fuel so that the kernel
evaluates it (any fuel at least the input's length gives the same output:
`stripFenceJsonF_congr`). -/
def stripFenceJsonF : Nat → List Char → List Char
  | 0, l => l
  | f + 1, l =>
    match l with
    | [] => []
    | c :: cs =>
      if startsLowerEq ("```json".toList) (c :: cs) then stripFenceJsonF f (cs.drop 6)
      else c :: stripFenceJsonF f cs

/-- `.replace(/```json/gi, '')`: delete every (case-insensitive) occurrence,
scanning left to right. -/
def stripFenceJson (l : List Char) : List Char := stripFenceJsonF l.length l

/-- `.replace(/```/g, '')`. -/
def stripFence : List Char → List Char
  | '`' :: '`' :: '`' :: r => stripFence r
  | c :: cs => c :: stripFence cs
  | [] => []

/-- `.replace(/`+/g, '')` (deleting every run of backticks deletes every
backtick). -/
def stripBackticks (l : List Char) : List Char := l.filter (fun c => c != '`')

/-- `.replace(/[^\x20-\x7E\n]/g, ' ')`. -/
def mapNonPrintable (l : List Char) : List Char :=
  l.map fun c => if (0x20 ≤ c.toNat && c.toNat ≤ 0x7e) || c = '\n' then c else ' '

/-- `.replace(/\s+/g, ' ')`: each maximal whitespace run becomes one space
(`prevWs` records whether the previous character was inside a run). -/
def collapseWs (prevWs : Bool) : List Char → List Char
  | [] => []
  | c :: cs =>
    if isJsSpace c then
      if prevWs then collapseWs true cs else ' ' :: collapseWs true cs
    else c :: collapseWs false cs

/-- The sanitization pipeline body shared by `cleanText` (aiService.js) and
`sanitizePlainText` (PlantScreen.js). -/
def cleanCore (l : List Char) : List Char :=
  jsTrim (collapseWs false (mapNonPrintable (stripBackticks (stripFence (stripFenceJson l)))))

/-- `cleanText` on a string argument (`if (!value) return ''`: of strings only
`''` is falsy, and the pipeline fixes `[]` anyway). -/
def cleanText (s : List Char) : List Char := if s.isEmpty then [] else cleanCore s

/-- `sanitizePlainText` of PlantScreen.js — textually the same code as
`cleanText`. -/
def sanitizePlainText (s : List Char) : List Char := cleanText s

/-! ## JavaScript `String()` and `Number()` coercions on JSON values -/

mutual
/-- `String(value)` on a JSON value (numbers in their exact decimal form,
which is what JavaScript prints for the decimal values that occur here). -/
def jsToString : Json → List Char
  | .null => "null".toList
  | .bool true => "true".toList
  | .bool false => "false".toList
  | .num n => renderJNum n
  | .str s => s
  | .arr xs => arrJoinStr xs
  | .obj _ => "[object Object]".toList

/-- `Array.prototype.toString`: elements joined by commas, a `null` element
as the empty string. -/
def arrJoinStr : JArr → List Char
  | .nil => []
  | .cons v .nil =>
    (match v with
     | .null => []
     | w => jsToString w)
  | .cons v (.cons w t) =>
    (match v with
     | .null => []
     | u => jsToString u) ++ ',' :: arrJoinStr (.cons w t)
end

/-- `cleanText(value)` where `value` is a possibly-undefined JSON value, e.g.
`cleanText(action?.task)`: falsy values give `''`, a truthy value is coerced
with `String()` and sanitized. -/
def cleanTextVal (v : Option Json) : List Char :=
  match v with
  | none => []
  | some j => if jsTruthy j then cleanText (jsToString j) else []

/-- `Number(string)` (a `none` stands for `NaN` or an infinity — every use in
the embedded code is behind `Number.isFinite`, which conflates them). Decimal
literals may have leading zeros, a bare leading or trailing point, an
exponent; hex, octal and binary literals take no sign; `Infinity` is
non-finite; surrounding whitespace is trimmed and the empty string is `0`. -/
def strToNum (s : List Char) : Option JNum :=
  let t := jsTrim s
  match t with
  | [] => some ⟨0, 0⟩
  | '-' :: r => (strToNumDec r).map fun n => ⟨-n.m, n.e⟩
  | '+' :: r => strToNumDec r
  | '0' :: 'x' :: r => strToNumRadix 16 r
  | '0' :: 'X' :: r => strToNumRadix 16 r
  | '0' :: 'o' :: r => strToNumRadix 8 r
  | '0' :: 'O' :: r => strToNumRadix 8 r
  | '0' :: 'b' :: r => strToNumRadix 2 r
  | '0' :: 'B' :: r => strToNumRadix 2 r
  | r => strToNumDec r
where
  /-- An unsigned decimal numeric literal, which must span the whole rest. -/
  strToNumDec (t : List Char) : Option JNum :=
    if t = "Infinity".toList then none
    else
      let intp := spanDigits t
      let frac : Option (List Char × List Char) := match intp.2 with
        | '.' :: r => some (spanDigits r)
        | r => some ([], r)
      match frac with
      | none => none
      | some (fds, r2) =>
        if intp.1.isEmpty && fds.isEmpty then none
        else
          let expo : Option (Int × List Char) := match r2 with
            | 'e' :: r3 | 'E' :: r3 =>
              let es : Bool × List Char := match r3 with
                | '+' :: r4 => (false, r4)
                | '-' :: r4 => (true, r4)
                | r4 => (false, r4)
              let p := spanDigits es.2
              if p.1.isEmpty then none
              else some ((if es.1 then -(digitsVal p.1 : Int) else (digitsVal p.1 : Int)), p.2)
            | r3 => some (0, r3)
          match expo with
          | none => none
          | some (ex, r3) =>
            if !r3.isEmpty then none
            else
              let eAdj : Int := (fds.length : Int) - ex
              if eAdj ≤ 0 then some ⟨(digitsVal (intp.1 ++ fds) : Int) * 10 ^ (-eAdj).toNat, 0⟩
              else some ⟨(digitsVal (intp.1 ++ fds) : Int), eAdj.toNat⟩
  /-- A hex/octal/binary integer literal after its `0x`-style prefix. -/
  strToNumRadix (base : Nat) (t : List Char) : Option JNum :=
    if t.isEmpty then none
    else
      let vals := t.map fun c =>
        (hexDigitVal c).bind fun v => if v < base then some v else none
      if vals.all Option.isSome then
        some ⟨(vals.foldl (fun acc v => acc * base + v.getD 0) 0 : Nat), 0⟩
      else none

/-- `Number(value)` on a JSON value; `none` is NaN/infinite (all uses sit
behind `Number.isFinite`).  A one-element array coerces through its element's
string form, which agrees with the element's own coercion except for booleans
and objects (`Number(["true"])` is NaN). -/
def jsToNumber : Json → Option JNum
  | .null => some ⟨0, 0⟩
  | .bool b => some ⟨if b then 1 else 0, 0⟩
  | .num n => some n
  | .str s => strToNum s
  | .arr .nil => some ⟨0, 0⟩
  | .arr (.cons (.bool _) .nil) => none
  | .arr (.cons (.obj _) .nil) => none
  | .arr (.cons v .nil) => jsToNumber v
  | .arr (.cons _ (.cons _ _)) => none
  | .obj _ => none

/-- `Number(x)` for a possibly-undefined `x` (`Number(undefined)` is NaN). -/
def jsToNumberOpt (v : Option Json) : Option JNum := v.bind jsToNumber

/-- JavaScript `Math.round`: the floor of `x + 1/2`. -/
def jsRound (q : ℚ) : ℤ := ⌊q + 1 / 2⌋

/-- `Number.prototype.toFixed(2)`, modelled as decimal half-up rounding of the
absolute value with the sign re-attached (the argument here is a farm area, a
small positive number). -/
def qToFixed2 (q : ℚ) : List Char :=
  let n := (jsRound (|q| * 100)).toNat
  (if q < 0 then ['-'] else []) ++
    natChars (n / 100) ++ '.' ::
      ((if n % 100 < 10 then ['0'] else []) ++ natChars (n % 100))

/-! ## The canonical plan data model (`StructuredPlan` as
`normalizeStructuredPlan` builds it) -/

structure PlanAction where
  task : List Char
  why : List Char
  when : List Char
  warning : List Char
deriving DecidableEq, Repr

structure PlanStep where
  title : List Char
  phase : List Char
  start_day : JNum
  end_day : JNum
  priority : List Char
  reason : List Char
  actions : List PlanAction
deriving DecidableEq, Repr

structure PlanSummary where
  objective : List Char
  estimated_harvest_days : JNum
  expected_yield_kg : JNum
  risk_level : List Char
  key_decision : List Char
deriving DecidableEq, Repr

structure PlanAlert where
  title : List Char
  severity : List Char
  message : List Char
deriving DecidableEq, Repr

structure StructuredPlan where
  summary : PlanSummary
  alerts : List PlanAlert
  steps : List PlanStep
deriving DecidableEq, Repr

/-- The context argument of `normalizeStructuredPlan` / `buildFallbackPlan`:
`{ crop, farmAreaHectares, weatherSummary }` (an absent weather summary and
the empty string behave identically in every use, so `[]` covers both). -/
structure PlanContext where
  crop : List Char
  farmAreaHectares : ℚ
  weatherSummary : List Char

/-! ## aiService.js — `safeJsonParse` and `extractJsonObject` -/

/-- `safeJsonParse`: `JSON.parse`, with a thrown `SyntaxError` as `none`. -/
def safeJsonParse (s : List Char) : Option Json := jsonParse s

/-- The value if it is JavaScript-truthy (the `if (parsed) return parsed`
guards). -/
def truthyOpt (o : Option Json) : Option Json :=
  match o with
  | some j => if jsTruthy j then some j else none
  | none => none

/-- Characters strictly before the first <code>```</code> fence, if one occurs. -/
def beforeFence : List Char → Option (List Char)
  | '`' :: '`' :: '`' :: _ => some []
  | c :: cs => (beforeFence cs).map fun l => c :: l
  | [] => none

/-- The capture of `/```json\s*([\s\S]*?)\s*```/i` on the text, if the regex
matches: the content between the first (case-insensitive) <code>```json</code>
opener that has a later closing fence and the first fence after it, with
surrounding whitespace absorbed by the `\s*`s. -/
def fencedCapture : List Char → Option (List Char)
  | [] => none
  | c :: cs =>
    if startsLowerEq ("```json".toList) (c :: cs) then
      match beforeFence (cs.drop 6) with
      | some inner => some (jsTrim inner)
      | none => fencedCapture cs
    else fencedCapture cs

theorem dropJsSpace_length_le (l : List Char) : (dropJsSpace l).length ≤ l.length := by
  induction l with
  | nil => simp [dropJsSpace]
  | cons c cs ih =>
    simp only [dropJsSpace]
    split
    · exact Nat.le_succ_of_le ih
    · simp

/-- The recursion of `stripTrailingCommas`, on explicit fuel so that the
kernel evaluates it (fuel at least the input's length always suffices). -/
def stripTrailingCommasF : Nat → List Char → List Char
  | 0, l => l
  | f + 1, l =>
    match l with
    | [] => []
    | ',' :: cs =>
      (match dropJsSpace cs with
       | '\x7d' :: r2 => '\x7d' :: stripTrailingCommasF f r2
       | '\x5d' :: r2 => '\x5d' :: stripTrailingCommasF f r2
       | _ => ',' :: stripTrailingCommasF f cs)
    | c :: cs => c :: stripTrailingCommasF f cs

/-- `.replace(/,\s*([}\]])/g, '$1')`: a comma whose next non-whitespace
character closes a brace or bracket is dropped together with that whitespace. -/
def stripTrailingCommas (l : List Char) : List Char := stripTrailingCommasF l.length l

/-- The first-`{`-to-last-`}` slice attempt of `extractJsonObject`, with the
trailing-comma retry. -/
def braceSlice (trimmed : List Char) : Option Json :=
  match trimmed.findIdx? (fun c => c = '\x7b'),
        trimmed.reverse.findIdx? (fun c => c = '\x7d') with
  | some fb, some rb =>
    let lb := trimmed.length - 1 - rb
    if fb < lb then
      let candidate := (trimmed.drop fb).take (lb + 1 - fb)
      match truthyOpt (safeJsonParse candidate) with
      | some j => some j
      | none => truthyOpt (safeJsonParse (stripTrailingCommas candidate))
    else none
  | _, _ => none

/-- `extractJsonObject` of aiService.js: direct parse of the trimmed text,
then the fenced-block capture, then the brace slice; a parse that yields a
falsy value falls through exactly as the `if (parsed)` guards do. -/
def extractJsonObject (text : List Char) : Option Json :=
  if text.isEmpty then none
  else
    let trimmed := jsTrim text
    match truthyOpt (safeJsonParse trimmed) with
    | some j => some j
    | none =>
      match fencedCapture trimmed with
      | some inner =>
        if inner.isEmpty then braceSlice trimmed
        else
          match truthyOpt (safeJsonParse (jsTrim inner)) with
          | some j => some j
          | none => braceSlice trimmed
      | none => braceSlice trimmed

/-! ## aiService.js — `buildFallbackPlan` -/

/-- `.replace(/^[-*]\s+/, '').replace(/^\d+[\).]\s+/, '').trim()` on one
extracted line. -/
def stripBulletNum (l : List Char) : List Char :=
  let l1 := match l with
    | c :: d :: r =>
      if (c = '-' || c = '*') && isJsSpace d then dropJsSpace (d :: r) else l
    | _ => l
  let p := spanDigits l1
  let l2 :=
    if p.1.isEmpty then l1
    else match p.2 with
      | ')' :: d :: r => if isJsSpace d then dropJsSpace (d :: r) else l1
      | '.' :: d :: r => if isJsSpace d then dropJsSpace (d :: r) else l1
      | _ => l1
  jsTrim l2

/-- `/[{}[\]"]/.test(line)`. -/
def hasJsonNoiseChar (l : List Char) : Bool :=
  l.any fun c => c = '\x7b' || c = '\x7d' || c = '\x5b' || c = '\x5d' || c = '"'

/-- The line-extraction of `buildFallbackPlan`: split on newlines (CRs first
deleted), sanitize, drop empties, strip bullet markers, keep lines of twelve
or more characters free of JSON punctuation, first ten. -/
def extractedTasks (rawText : List Char) : List (List Char) :=
  ((((rawText.filter (fun c => c ≠ '\r')).splitOn '\n').map cleanText).filter
      (fun l => !l.isEmpty)
    |>.map stripBulletNum
    |>.filter (fun l => 12 ≤ l.length && !hasJsonNoiseChar l)
  ).take 10

/-- The fixed fallback task library, crop-name interpolated. -/
def defaultTasks (crop : List Char) : List (List Char) :=
  [ "Prepare soil beds for ".toList ++ crop ++ " and remove weeds before planting.".toList
  , "Mark row spacing and planting depth suitable for ".toList ++ crop ++ ".".toList
  , "Plant high quality seeds or stems at uniform spacing.".toList
  , "Set a weekly watering schedule based on local rainfall.".toList
  , "Apply fertilizer in split doses to reduce nutrient loss.".toList
  , "Scout for pests and disease signs at least twice per week.".toList
  , "Adjust irrigation and feeding around flowering stage.".toList
  , "Harvest at proper maturity and sort produce by quality.".toList ]

def phaseOrder : List (List Char) :=
  [ "soil".toList, "planting".toList, "water".toList
  , "fertilizer".toList, "protection".toList, "harvest".toList ]

/-- `phase.charAt(0).toUpperCase() + phase.slice(1)`. -/
def capFirst : List Char → List Char
  | [] => []
  | c :: cs => (if 'a' ≤ c && c ≤ 'z' then Char.ofNat (c.toNat - 32) else c) :: cs

/-- One synthesized fallback step (the `tasks.slice(0, 8).map` body). -/
def fallbackStep (crop : List Char) (idx : Nat) (task : List Char) : PlanStep :=
  let phase := (phaseOrder.getD (idx % phaseOrder.length) [])
  { title := capFirst phase ++ " Step".toList
  , phase := phase
  , start_day := ⟨(idx : Int) * 7, 0⟩
  , end_day := ⟨(idx : Int) * 7 + 6, 0⟩
  , priority :=
      if idx < 2 then "high".toList else if idx < 5 then "medium".toList else "low".toList
  , reason := "This action improves ".toList ++ crop ++ " output consistency on your farm.".toList
  , actions :=
      [{ task := task
       , why := "Helps protect yield and crop quality for ".toList ++ crop ++ ".".toList
       , when := if idx = 0 then "Start immediately".toList else "Week ".toList ++ natChars (idx + 1)
       , warning := [] }] }

/-- Case-insensitive substring test (the pattern given lowercase), as a
JavaScript `/pat/i.test(s)`. -/
def containsLowerSub (pat : List Char) : List Char → Bool
  | [] => pat.isEmpty
  | c :: cs => startsLowerEq pat (c :: cs) || containsLowerSub pat cs

/-- `/storm|heavy rain|heat|dry/i.test(weatherSummary || '')`. -/
def riskTest (w : List Char) : Bool :=
  containsLowerSub ("storm".toList) w || containsLowerSub ("heavy rain".toList) w ||
  containsLowerSub ("heat".toList) w || containsLowerSub ("dry".toList) w

/-- `buildFallbackPlan` of aiService.js. -/
def buildFallbackPlan (rawText : List Char) (ctx : PlanContext) : StructuredPlan :=
  let ex := extractedTasks rawText
  let tasks := if 4 ≤ ex.length then ex else defaultTasks ctx.crop
  { summary :=
      { objective := "Optimize ".toList ++ ctx.crop ++ " production on ".toList ++
          qToFixed2 ctx.farmAreaHectares ++ " ha using weather-aware scheduling.".toList
      , estimated_harvest_days := ⟨90, 0⟩
      , expected_yield_kg := ⟨max 150 (jsRound (ctx.farmAreaHectares * 3500)), 0⟩
      , risk_level := if riskTest ctx.weatherSummary then "medium".toList else "low".toList
      , key_decision := "Prioritize timing and water management for ".toList ++ ctx.crop ++ ".".toList }
  , alerts :=
      [{ title := "Weather Watch".toList
       , severity := "info".toList
       , message := cleanText (if ctx.weatherSummary.isEmpty then
           "Monitor daily weather updates and adjust activities.".toList else ctx.weatherSummary) }]
  , steps := (tasks.take 8).mapIdx fun idx task => fallbackStep ctx.crop idx task }

/-! ## aiService.js — `normalizeStructuredPlan` -/

/-- The action-map body of `normalizeStructuredPlan`. -/
def normalizeAction (a : Json) : PlanAction :=
  { task := cleanTextVal (jsGet a ("task".toList))
  , why := cleanTextVal (jsGet a ("why".toList))
  , when := cleanTextVal (jsGet a ("when".toList))
  , warning := cleanTextVal (jsGet a ("warning".toList)) }

/-- The step-map body of `normalizeStructuredPlan`: `none` is the dropped
(`null`) step whose actions all sanitize away. -/
def normalizeStep (stepIdx : Nat) (step : Json) : Option PlanStep :=
  let actions := match jsGet step ("actions".toList) with
    | some (.arr xs) => (xs.toList.map normalizeAction).filter fun a => !a.task.isEmpty
    | _ => []
  if actions.isEmpty then none
  else
    let phase := (cleanTextVal (jsGet step ("phase".toList))).map lowerCh
    let pr := (cleanTextVal (jsGet step ("priority".toList))).map lowerCh
    let title := cleanTextVal (jsGet step ("title".toList))
    some
      { title := if title.isEmpty then "Step ".toList ++ natChars (stepIdx + 1) else title
      , phase := if phase.isEmpty then "planting".toList else phase
      , start_day := (jsToNumberOpt (jsGet step ("start_day".toList))).getD ⟨(stepIdx : Int) * 7, 0⟩
      , end_day := (jsToNumberOpt (jsGet step ("end_day".toList))).getD ⟨(stepIdx : Int) * 7 + 6, 0⟩
      , priority :=
          if [ "low".toList, "medium".toList, "high".toList ].contains pr then pr
          else "medium".toList
      , reason := cleanTextVal (jsGet step ("reason".toList))
      , actions := actions }

/-- The alert-map body of `normalizeStructuredPlan`. -/
def normalizeAlert (a : Json) : PlanAlert :=
  let sev := (cleanTextVal (jsGet a ("severity".toList))).map lowerCh
  { title := cleanTextVal (jsGet a ("title".toList))
  , severity :=
      if [ "info".toList, "warning".toList, "critical".toList ].contains sev then sev
      else "info".toList
  , message := cleanTextVal (jsGet a ("message".toList)) }

/-- The summary of a successfully parsed plan. -/
def normalizeSummary (parsed : Json) (ctx : PlanContext) : PlanSummary :=
  let sm := jsGet parsed ("summary".toList)
  let obj := cleanTextVal (jsGetOpt sm ("objective".toList))
  let kd := cleanTextVal (jsGetOpt sm ("key_decision".toList))
  let rl := (cleanTextVal (jsGetOpt sm ("risk_level".toList))).map lowerCh
  { objective :=
      if obj.isEmpty then
        "Optimize ".toList ++ ctx.crop ++ " output through guided farm actions.".toList
      else obj
  , estimated_harvest_days :=
      (jsToNumberOpt (jsGetOpt sm ("estimated_harvest_days".toList))).getD ⟨90, 0⟩
  , expected_yield_kg :=
      (jsToNumberOpt (jsGetOpt sm ("expected_yield_kg".toList))).getD
        ⟨max 150 (jsRound (ctx.farmAreaHectares * 3500)), 0⟩
  , risk_level :=
      if [ "low".toList, "medium".toList, "high".toList ].contains rl then rl
      else "medium".toList
  , key_decision :=
      if kd.isEmpty then
        "Focus on timing, water, and pest prevention for ".toList ++ ctx.crop ++ ".".toList
      else kd }

/-- `normalizeStructuredPlan` of aiService.js: extract JSON, normalize its
steps, and fall back to the synthesized plan when extraction or validation
leaves no usable step. -/
def normalizeStructuredPlan (rawText : List Char) (ctx : PlanContext) : StructuredPlan :=
  match extractJsonObject rawText with
  | none => buildFallbackPlan rawText ctx
  | some parsed =>
    match jsGet parsed ("steps".toList) with
    | some (.arr stepsArr) =>
      if stepsArr.toList.isEmpty then buildFallbackPlan rawText ctx
      else
        let steps := (stepsArr.toList.mapIdx fun i st => normalizeStep i st).reduceOption
        if steps.isEmpty then buildFallbackPlan rawText ctx
        else
          { summary := normalizeSummary parsed ctx
          , alerts := match jsGet parsed ("alerts".toList) with
              | some (.arr xs) =>
                (xs.toList.map normalizeAlert).filter fun a =>
                  !a.title.isEmpty || !a.message.isEmpty
              | _ => []
          , steps := steps }
    | _ => buildFallbackPlan rawText ctx

/-! ## The serialized plan: `JSON.stringify(normalized)` in
`generateFarmingPlan` (field order is the object-literal insertion order). -/

def planActionToJson (a : PlanAction) : Json :=
  .obj (.cons ("task".toList) (.str a.task)
    (.cons ("why".toList) (.str a.why)
      (.cons ("when".toList) (.str a.when)
        (.cons ("warning".toList) (.str a.warning) .nil))))

def planStepToJson (s : PlanStep) : Json :=
  .obj (.cons ("title".toList) (.str s.title)
    (.cons ("phase".toList) (.str s.phase)
      (.cons ("start_day".toList) (.num s.start_day)
        (.cons ("end_day".toList) (.num s.end_day)
          (.cons ("priority".toList) (.str s.priority)
            (.cons ("reason".toList) (.str s.reason)
              (.cons ("actions".toList) (.arr (JArr.ofList (s.actions.map planActionToJson)))
                .nil)))))))

def planAlertToJson (a : PlanAlert) : Json :=
  .obj (.cons ("title".toList) (.str a.title)
    (.cons ("severity".toList) (.str a.severity)
      (.cons ("message".toList) (.str a.message) .nil)))

def structuredPlanToJson (p : StructuredPlan) : Json :=
  .obj (.cons ("summary".toList)
      (.obj (.cons ("objective".toList) (.str p.summary.objective)
        (.cons ("estimated_harvest_days".toList) (.num p.summary.estimated_harvest_days)
          (.cons ("expected_yield_kg".toList) (.num p.summary.expected_yield_kg)
            (.cons ("risk_level".toList) (.str p.summary.risk_level)
              (.cons ("key_decision".toList) (.str p.summary.key_decision) .nil))))))
    (.cons ("alerts".toList) (.arr (JArr.ofList (p.alerts.map planAlertToJson)))
      (.cons ("steps".toList) (.arr (JArr.ofList (p.steps.map planStepToJson)))
        .nil)))

/-! ## PlantScreen.js — `extractLikelyJson` and `parseStructuredPlan`

PlantScreen.js duplicates the extraction code of aiService.js
(`sanitizePlainText` = `cleanText` character for character, and
`extractLikelyJson`'s three attempts are those of `extractJsonObject`, with
its brace-slice retry split over two statements of identical meaning), so the
embedded functions are definitionally shared. -/

def extractLikelyJson (text : List Char) : Option Json := extractJsonObject text

/-- `sanitizePlainText` applied to a possibly-undefined JSON value. -/
def sanitizePlainTextVal (v : Option Json) : List Char := cleanTextVal v

structure ParsedAction where
  id : List Char
  task : List Char
  why : List Char
  when : List Char
  warning : List Char
deriving DecidableEq, Repr

structure ParsedStep where
  title : List Char
  phase : List Char
  startDay : Option JNum
  endDay : Option JNum
  priority : List Char
  reason : List Char
  actions : List ParsedAction
deriving DecidableEq, Repr

structure ParsedAlert where
  title : List Char
  message : List Char
  severity : List Char
deriving DecidableEq, Repr

structure ParsedSummary where
  objective : List Char
  keyDecision : List Char
deriving DecidableEq, Repr

structure ParsedPlan where
  summary : ParsedSummary
  alerts : List ParsedAlert
  steps : List ParsedStep
deriving DecidableEq, Repr

/-- The action-map body of `parseStructuredPlan` (the `id` is the template
string `` `${stepIdx}-${actionIdx}` ``). -/
def parseAction (stepIdx actionIdx : Nat) (a : Json) : ParsedAction :=
  { id := natChars stepIdx ++ '-' :: natChars actionIdx
  , task := sanitizePlainTextVal (jsGet a ("task".toList))
  , why := sanitizePlainTextVal (jsGet a ("why".toList))
  , when := sanitizePlainTextVal (jsGet a ("when".toList))
  , warning := sanitizePlainTextVal (jsGet a ("warning".toList)) }

/-- The step-map body of `parseStructuredPlan`: note that here `phase` keeps
whatever the lowercased sanitized value is (no defaulting at all), `priority`
defaults only when empty, and absent day bounds stay `none`. -/
def parseStep (stepIdx : Nat) (st : Json) : ParsedStep :=
  let actions := match jsGet st ("actions".toList) with
    | some (.arr xs) =>
      (xs.toList.mapIdx fun ai a => parseAction stepIdx ai a).filter fun a => !a.task.isEmpty
    | _ => []
  let title := sanitizePlainTextVal (jsGet st ("title".toList))
  let pr := (sanitizePlainTextVal (jsGet st ("priority".toList))).map lowerCh
  { title := if title.isEmpty then "Step ".toList ++ natChars (stepIdx + 1) else title
  , phase := (sanitizePlainTextVal (jsGet st ("phase".toList))).map lowerCh
  , startDay := jsToNumberOpt (jsGet st ("start_day".toList))
  , endDay := jsToNumberOpt (jsGet st ("end_day".toList))
  , priority := if pr.isEmpty then "medium".toList else pr
  , reason := sanitizePlainTextVal (jsGet st ("reason".toList))
  , actions := actions }

/-- The alert-map body of `parseStructuredPlan` (severity defaults only when
empty here, unlike the validated normalization in aiService.js). -/
def parseAlert (a : Json) : ParsedAlert :=
  let sev := (sanitizePlainTextVal (jsGet a ("severity".toList))).map lowerCh
  { title := sanitizePlainTextVal (jsGet a ("title".toList))
  , message := sanitizePlainTextVal (jsGet a ("message".toList))
  , severity := if sev.isEmpty then "info".toList else sev }

/-- `parseStructuredPlan` of PlantScreen.js (its `try`/`catch` guards nothing
that can throw in this embedding, so it is inert). -/
def parseStructuredPlan (planText : List Char) : Option ParsedPlan :=
  if planText.isEmpty then none
  else
    match extractLikelyJson planText with
    | none => none
    | some raw =>
      match jsGet raw ("steps".toList) with
      | some (.arr stepsArr) =>
        if stepsArr.toList.isEmpty then none
        else
          let steps :=
            (stepsArr.toList.mapIdx fun i st => parseStep i st).filter fun s =>
              !s.actions.isEmpty
          if steps.isEmpty then none
          else
            let sm := jsGet raw ("summary".toList)
            some
              { summary :=
                  { objective := sanitizePlainTextVal (jsGetOpt sm ("objective".toList))
                  , keyDecision := sanitizePlainTextVal (jsGetOpt sm ("key_decision".toList)) }
              , alerts := match jsGet raw ("alerts".toList) with
                  | some (.arr xs) =>
                    (xs.toList.map parseAlert).filter fun a =>
                      !a.title.isEmpty || !a.message.isEmpty
                  | _ => []
              , steps := steps }
      | _ => none

/-! ## PlantScreen.js — `parsePlanSections` (the legacy prose parser) -/

/-- Does the input start with the given literal?  On success, the rest. -/
def dropLit : List Char → List Char → Option (List Char)
  | [], l => some l
  | _ :: _, [] => none
  | p :: ps, c :: cs => if c = p then dropLit ps cs else none

/-- `/"key"\s*:/.test(text)`: somewhere in the text, the quoted key followed
by optional whitespace and a colon. -/
def testKeyPattern (key : List Char) : List Char → Bool
  | [] => false
  | c :: cs =>
    (match dropLit ('"' :: (key ++ ['"'])) (c :: cs) with
     | some r => (dropJsSpace r).head? = some ':'
     | none => false) ||
    testKeyPattern key cs

/-- A `\w` or `-` character (the `[\w-]+` class of the noise patterns). -/
def isWordDash (c : Char) : Bool :=
  ('a' ≤ c && c ≤ 'z') || ('A' ≤ c && c ≤ 'Z') || ('0' ≤ c && c ≤ '9') || c = '_' || c = '-'

/-- The third and fourth noise patterns share the prefix
`^"[\w-]+"\s*:`; after the colon the fourth accepts one-or-more characters
(`\s*.+,?$`) and the third the empty rest or a lone opening bracket
(`\s*[\[{]?$`), so together they accept any rest at all and the prefix test
is the whole condition. -/
def quotedKeyColonLine (l : List Char) : Bool :=
  match l with
  | '"' :: r =>
    let p := r.span isWordDash
    if p.1.isEmpty then false
    else
      match p.2 with
      | '"' :: r2 => (dropJsSpace r2).head? = some ':'
      | _ => false
  | _ => false

/-- The `isJsonNoise` test of `parsePlanSections`. -/
def isJsonNoiseLine (l : List Char) : Bool :=
  (dropLit ("```".toList) l).isSome ||
  (!l.isEmpty && l.all fun c => c = '\x7b' || c = '\x7d' || c = '\x5b' || c = '\x5d' || c = ',') ||
  quotedKeyColonLine l

/-- First `:` at index one or more: `(before, after)`. -/
def splitFirstColon : List Char → Option (List Char × List Char)
  | [] => none
  | c :: cs => go [c] cs
where
  go (acc : List Char) : List Char → Option (List Char × List Char)
    | ':' :: r => some (acc.reverse, r)
    | c2 :: r => go (c2 :: acc) r
    | [] => none

/-- First `**` at index one or more: `(before, after)`. -/
def splitFirstStars : List Char → Option (List Char × List Char)
  | [] => none
  | c :: cs => go [c] cs
where
  go (acc : List Char) : List Char → Option (List Char × List Char)
    | '*' :: '*' :: r => some (acc.reverse, r)
    | c2 :: r => go (c2 :: acc) r
    | [] => none

/-- `/^\d+\.\s*\*\*(.+?)\*\*\s*-?\s*(.*)$/` as (raw title, raw content). -/
def matchH1 (l : List Char) : Option (List Char × List Char) :=
  let d := spanDigits l
  if d.1.isEmpty then none
  else
    match d.2 with
    | '.' :: r =>
      match dropLit ("**".toList) (dropJsSpace r) with
      | some r2 =>
        match splitFirstStars r2 with
        | some (t, rest) =>
          let a := dropJsSpace rest
          let b := match a with
            | '-' :: x => dropJsSpace x
            | _ => a
          some (t, b)
        | none => none
      | none => none
    | _ => none

/-- `/^\d+\.\s*(.+?):\s*(.*)$/`.  When the text right after the whitespace
starts with the only colon, the greedy `\s*` backs off one character so the
lazy capture is that whitespace character — the regex's actual behavior. -/
def matchH2 (l : List Char) : Option (List Char × List Char) :=
  let d := spanDigits l
  if d.1.isEmpty then none
  else
    match d.2 with
    | '.' :: r =>
      let ws := r.takeWhile isJsSpace
      let r1 := dropJsSpace r
      match splitFirstColon r1 with
      | some (t, rest) => some (t, dropJsSpace rest)
      | none =>
        match r1 with
        | ':' :: rest => if ws.isEmpty then none else some ([ws.getLastD ' '], dropJsSpace rest)
        | _ => none
    | _ => none

/-- `/^(?:step\s*)?\d+\s*[-.:)]\s*(.+?)(?::\s*(.*))?$/i`: optional colon
group, so a rest with no late colon is all title; an empty rest after the
separator backs the greedy `\s*` off one character. -/
def matchH3 (l : List Char) : Option (List Char × List Char) :=
  let m := match dropLitLowerEq ("step".toList) l with
    | some r => dropJsSpace r
    | none => l
  let d := spanDigits m
  if d.1.isEmpty then none
  else
    match dropJsSpace d.2 with
    | sep :: rest0 =>
      if sep = '-' || sep = '.' || sep = ':' || sep = ')' then
        let ws := rest0.takeWhile isJsSpace
        let rest := dropJsSpace rest0
        match splitFirstColon rest with
        | some (t, after) => some (t, dropJsSpace after)
        | none =>
          if !rest.isEmpty then some (rest, [])
          else if !ws.isEmpty then some ([ws.getLastD ' '], [])
          else none
      else none
    | [] => none
where
  /-- `dropLit`, case-insensitively (pattern given lowercase). -/
  dropLitLowerEq : List Char → List Char → Option (List Char)
    | [], l => some l
    | _ :: _, [] => none
    | p :: ps, c :: cs => if lowerCh c = p then dropLitLowerEq ps cs else none

/-- `/^(?:[-*]\s+|\d+[\).]\s+)(.+)$/`, the captured item. -/
def matchAction (l : List Char) : Option (List Char) :=
  match l with
  | c :: d :: r =>
    if (c = '-' || c = '*') && isJsSpace d then afterMarker (d :: r)
    else matchActionNum l
  | _ => matchActionNum l
where
  /-- After the marker: `\s+` then a nonempty capture; all-whitespace rest
  backs the greedy `\s+` off one character (never hit on trimmed lines). -/
  afterMarker (t : List Char) : Option (List Char) :=
    let ws := t.takeWhile isJsSpace
    let rest := dropJsSpace t
    if !rest.isEmpty then some rest
    else if 2 ≤ ws.length then some [ws.getLastD ' ']
    else none
  matchActionNum (l : List Char) : Option (List Char) :=
    let d := spanDigits l
    if d.1.isEmpty then none
    else
      match d.2 with
      | sep :: e :: r =>
        if (sep = ')' || sep = '.') && isJsSpace e then afterMarker (e :: r) else none
      | _ => none

structure PlanSection where
  title : List Char
  content : List Char
  actionItems : List (List Char)
deriving DecidableEq, Repr

/-- `.split(/\n|;\s+|\.\s+/)` on a section's content. -/
def splitContentSeps (l : List Char) : List (List Char) :=
  go [] l
where
  go (acc : List Char) (l : List Char) : List (List Char) :=
    match l with
    | [] => [acc.reverse]
    | '\n' :: r => acc.reverse :: go [] r
    | ';' :: d :: r =>
      if isJsSpace d then acc.reverse :: go [] (dropJsSpace (d :: r))
      else go (';' :: acc) (d :: r)
    | '.' :: d :: r =>
      if isJsSpace d then acc.reverse :: go [] (dropJsSpace (d :: r))
      else go ('.' :: acc) (d :: r)
    | c :: r => go (c :: acc) r
  termination_by l.length
  decreasing_by
    · simp
    · have := dropJsSpace_length_le (d :: r)
      simp at this ⊢
      omega
    · simp
    · have := dropJsSpace_length_le (d :: r)
      simp at this ⊢
      omega
    · simp
    · simp

/-- The per-line step of `parsePlanSections`' loop: `(finished sections in
reverse, the open section)`. -/
def planSectionLine (acc : List PlanSection × Option PlanSection) (rawLine : List Char) :
    List PlanSection × Option PlanSection :=
  let line := jsTrim rawLine
  if line.isEmpty then acc
  else if isJsonNoiseLine line then acc
  else
    match (matchH1 line).orElse (fun _ => (matchH2 line).orElse fun _ => matchH3 line) with
    | some (t, c) =>
      let pushed := match acc.2 with
        | some cur => cur :: acc.1
        | none => acc.1
      (pushed, some { title := jsTrim t, content := jsTrim c, actionItems := [] })
    | none =>
      match matchAction line with
      | some item =>
        match acc.2 with
        | some cur => (acc.1, some { cur with actionItems := cur.actionItems ++ [jsTrim item] })
        | none =>
          (acc.1, some { title := "Plan Overview".toList, content := [], actionItems := [jsTrim item] })
      | none =>
        match acc.2 with
        | none => (acc.1, some { title := "Plan Overview".toList, content := line, actionItems := [] })
        | some cur =>
          let joined := jsTrim (cur.content ++ (if cur.content.isEmpty then [] else ['\n']) ++ line)
          (acc.1, some { cur with content := joined })

/-- The post-processing map of `parsePlanSections`: a section with no
explicit action items gets up to three long-enough sanitized content
fragments as ad hoc actions. -/
def planSectionFallback (s : PlanSection) : PlanSection :=
  if !s.actionItems.isEmpty then s
  else
    { title := sanitizePlainText s.title
    , content := sanitizePlainText s.content
    , actionItems :=
        (((splitContentSeps s.content).map sanitizePlainText).filter fun x => 8 ≤ x.length).take 3 }

/-- `parsePlanSections` of PlantScreen.js.  The second guard is the implicit
JSON gate: text carrying both a `"summary":` and a `"steps":` key pattern is
never broken into prose sections. -/
def parsePlanSections (planText : List Char) : List PlanSection :=
  if planText.isEmpty then []
  else if testKeyPattern ("summary".toList) planText && testKeyPattern ("steps".toList) planText then []
  else
    let lines := (planText.filter fun c => c ≠ '\r').splitOn '\n'
    let st := lines.foldl planSectionLine ([], none)
    let sections := (match st.2 with
      | some cur => cur :: st.1
      | none => st.1).reverse
    (sections.map planSectionFallback).filter fun s =>
      !s.content.isEmpty || !s.actionItems.isEmpty

/-! ## PlantScreen.js — the walkthrough state machine

The walkthrough operates on the derived `planSections` list (from the
structured plan's steps or the prose sections — either way a list of sections
with ordered `actionItems`).  `walkthroughTasks` carries display fields the
transition functions never read; what they do read is each task's
`(sectionIdx, actionIdx)` key, so the embedding flattens the keys.  The
source's completion map keys are the strings `` `${sectionIdx}-${actionIdx}`
``, injective in the index pair, embedded as the pair itself. -/

def getActionKey (sectionIdx actionIdx : Nat) : Nat × Nat := (sectionIdx, actionIdx)

structure WalkState where
  completedActions : Finset (Nat × Nat)
  currentTaskIdx : Nat
deriving DecidableEq

/-- The `(sectionIdx, actionIdx)` keys of `walkthroughTasks`, in flattening
order (section order, then action order). -/
def walkthroughKeys (sections : List PlanSection) : List (Nat × Nat) :=
  (sections.mapIdx fun i sec => sec.actionItems.mapIdx fun j _ => getActionKey i j).flatten

def totalTaskCount (sections : List PlanSection) : Nat := (walkthroughKeys sections).length

/-- `totalActionCount`: the sum over sections of their action counts. -/
def totalActionCount (sections : List PlanSection) : Nat :=
  (sections.map fun sec => sec.actionItems.length).sum

/-- `boundedTaskIdx = totalTaskCount > 0 ? min(currentTaskIdx, totalTaskCount - 1) : 0`. -/
def boundedTaskIdx (sections : List PlanSection) (st : WalkState) : Nat :=
  if 0 < totalTaskCount sections then min st.currentTaskIdx (totalTaskCount sections - 1) else 0

/-- `currentTask` restricted to its key (none when the walkthrough is inert). -/
def currentTaskKey (sections : List PlanSection) (st : WalkState) : Option (Nat × Nat) :=
  (walkthroughKeys sections)[boundedTaskIdx sections st]?

/-- `goToTask`: clamp into `[0, totalTaskCount - 1]`; inert when empty. -/
def goToTask (sections : List PlanSection) (st : WalkState) (nextIdx : ℤ) : WalkState :=
  if totalTaskCount sections = 0 then st
  else
    { st with currentTaskIdx := (max 0 (min nextIdx ((totalTaskCount sections : ℤ) - 1))).toNat }

/-- `completeAndAdvance`: mark the current action complete; advance by one
unless already at the last action. -/
def completeAndAdvance (sections : List PlanSection) (st : WalkState) : WalkState :=
  match currentTaskKey sections st with
  | none => st
  | some key =>
    let st' := { st with completedActions := insert key st.completedActions }
    if boundedTaskIdx sections st < totalTaskCount sections - 1 then
      goToTask sections st' ((boundedTaskIdx sections st : ℤ) + 1)
    else st'

/-- `toggleCurrentTask`: flip the current action's completion bit; advance
(after the UI delay, elided here) only on an unchecked-to-checked flip that is
not at the last action. -/
def toggleCurrentTask (sections : List PlanSection) (st : WalkState) : WalkState :=
  match currentTaskKey sections st with
  | none => st
  | some key =>
    let wasChecked := key ∈ st.completedActions
    let st' := { st with completedActions :=
      if wasChecked then st.completedActions.erase key else insert key st.completedActions }
    if !wasChecked && boundedTaskIdx sections st < totalTaskCount sections - 1 then
      goToTask sections st' ((boundedTaskIdx sections st : ℤ) + 1)
    else st'

/-- The reset effect (`setCompletedActions({}); setCurrentTaskIdx(0)`), run on
every new plan. -/
def resetWalkthrough : WalkState := ⟨∅, 0⟩

/-- `getCompletedActionsForSection`. -/
def completedForSection (st : WalkState) (sec : PlanSection) (sectionIdx : Nat) : Nat :=
  ((sec.actionItems.mapIdx fun j _ => getActionKey sectionIdx j).filter fun k =>
    k ∈ st.completedActions).length

/-- `completedActionCount`. -/
def completedActionCount (sections : List PlanSection) (st : WalkState) : Nat :=
  ((sections.mapIdx fun i sec => completedForSection st sec i)).sum

/-- `progressPercent = totalActionCount > 0 ? Math.round(completed / total * 100) : 0`. -/
def progressPercent (sections : List PlanSection) (st : WalkState) : ℤ :=
  if 0 < totalActionCount sections then
    jsRound ((completedActionCount sections st : ℚ) / (totalActionCount sections : ℚ) * 100)
  else 0

/-- The walkthrough's entire mutation surface. -/
inductive WalkOp where
  | toggle
  | completeAdv
  | goTo (idx : ℤ)
  | reset

def applyWalkOp (sections : List PlanSection) (st : WalkState) : WalkOp → WalkState
  | .toggle => toggleCurrentTask sections st
  | .completeAdv => completeAndAdvance sections st
  | .goTo idx => goToTask sections st idx
  | .reset => resetWalkthrough

/-- Every state reachable from a fresh walkthrough by a sequence of
operations. -/
def runWalkOps (sections : List PlanSection) (ops : List WalkOp) : WalkState :=
  ops.foldl (applyWalkOp sections) resetWalkthrough

/-! ## aiService.js — the model-fallback loop of `generateFarmingPlan`

The `fetch` boundary is abstracted as an oracle from the model identifier to
that request's outcome (the loop body sends the same prompt each round, so
the model name is the only varying input).  The loop's result is the list of
models actually requested, in order, paired with the thrown error or the
returned `JSON.stringify(normalized)` payload. -/

inductive FetchResult where
  | transportError (msg : List Char)
  | httpError (status : Nat) (errJson : Option Json) (errText : Option (List Char))
  | httpOk (body : Option Json)
deriving DecidableEq

/-- The derived message of a non-success response: the base
`Claude API error (status) on model m.`, extended by the parsed body's
`error.message` if truthy, else by the first 300 characters of the raw body
text if nonblank. -/
def deriveErrMsg (status : Nat) (model : List Char) (errJson : Option Json)
    (errText : Option (List Char)) : List Char :=
  let base := "Claude API error (".toList ++ natChars status ++ ") on model ".toList ++
    model ++ ".".toList
  match errJson with
  | some j =>
    match jsGetOpt (jsGet j ("error".toList)) ("message".toList) with
    | some m => if jsTruthy m then base ++ ' ' :: jsToString m else base
    | none => base
  | none =>
    match errText with
    | some raw => if (jsTrim raw).isEmpty then base else base ++ ' ' :: raw.take 300
    | none => base

/-- The concatenated `"text"`-typed content segments of a success body,
joined by newlines and trimmed; `''` when `content` is not an array. -/
def extractRespText (data : Json) : List Char :=
  match jsGet data ("content".toList) with
  | some (.arr xs) =>
    jsTrim (List.intercalate ['\n']
      ((xs.toList.filter fun p =>
          jsGet p ("type".toList) = some (.str ("text".toList)) && isStrField (jsGet p ("text".toList))).map
        fun p => strFieldD (jsGet p ("text".toList))))
  | _ => []
where
  isStrField : Option Json → Bool
    | some (.str _) => true
    | _ => false
  strFieldD : Option Json → List Char
    | some (.str s) => s
    | _ => []

/-- The candidate loop of `generateFarmingPlan`: returns the models requested
(in order) and the outcome. -/
def tryModels (fetchx : List Char → FetchResult) (ctx : PlanContext) :
    List (List Char) → Option (List Char) → List (List Char) × Except (List Char) (List Char)
  | [], lastError =>
    ([], .error (lastError.getD ("Claude API failed for all configured models.".toList)))
  | model :: rest, lastError =>
    match fetchx model with
    | .transportError m =>
      ([model], .error ("Network error while calling Claude: ".toList ++
        (if m.isEmpty then "request failed".toList else m)))
    | .httpError status ej et =>
      let msg := deriveErrMsg status model ej et
      if status = 404 && containsLowerSub ("model".toList) msg then
        let r := tryModels fetchx ctx rest (some msg)
        (model :: r.1, r.2)
      else ([model], .error msg)
    | .httpOk none => ([model], .error ("Claude API returned an invalid JSON response.".toList))
    | .httpOk (some data) =>
      let text := extractRespText data
      if text.isEmpty then
        ([model], .error ("Claude returned an empty response for model ".toList ++ model ++ ".".toList))
      else
        ([model], .ok (renderJson (structuredPlanToJson (normalizeStructuredPlan text ctx))))

/-- `[...new Set(fallbackModels.filter(Boolean))]`: drop falsy entries, keep
first occurrences in order. -/
def dedupKeepFirst (l : List (List Char)) : List (List Char) :=
  go [] l
where
  go (seen : List (List Char)) : List (List Char) → List (List Char)
    | [] => []
    | m :: r => if seen.contains m then go seen r else m :: go (m :: seen) r

/-- `generateFarmingPlan`, from the credential check through the loop.  The
prompt (which varies only with the context, not the candidate) is folded into
the oracle. -/
def generateFarmingPlan (apiKey claudeModel : List Char) (fetchx : List Char → FetchResult)
    (ctx : PlanContext) : List (List Char) × Except (List Char) (List Char) :=
  if apiKey.isEmpty then
    ([], .error ("Missing EXPO_PUBLIC_ANTHROPIC_API_KEY in .env.".toList))
  else
    tryModels fetchx ctx
      (dedupKeepFirst (([claudeModel] ++
        [ "claude-haiku-4-5-20251001".toList
        , "claude-sonnet-4-20250514".toList
        , "claude-sonnet-4-6".toList ]).filter fun m => !m.isEmpty))
      none

/-! ## Supporting definitions for the round-trip development (claim C7) -/

mutual
/-- Fuel sufficient for `parseJVal` on this value's rendering. -/
def needV : Json → Nat
  | .null => 1
  | .bool _ => 1
  | .num _ => 1
  | .str _ => 1
  | .arr xs => 1 + needA xs
  | .obj xs => 1 + needO xs

def needA : JArr → Nat
  | .nil => 1
  | .cons v t => 1 + needV v + needA t

def needO : JObj → Nat
  | .nil => 1
  | .cons _ v t => 1 + needV v + needO t
end

/-- No two adjacent spaces. -/
def noDoubleSpace : List Char → Prop
  | a :: b :: r => ¬(a = ' ' ∧ b = ' ') ∧ noDoubleSpace (b :: r)
  | _ => True

/-- The normal form of the sanitizer: printable ASCII, no backtick, no run of
spaces, no space at either end.  `cleanText` lands in this set and is the
identity on it. -/
def CleanNF (l : List Char) : Prop :=
  (∀ c ∈ l, 0x20 ≤ c.toNat ∧ c.toNat ≤ 0x7e ∧ c ≠ '`') ∧
  noDoubleSpace l ∧
  (∀ c, l.head? = some c → c ≠ ' ') ∧
  (∀ c, l.getLast? = some c → c ≠ ' ')

/-- The condition under which `normalizeStructuredPlan` keeps the parsed
plan rather than synthesizing the fallback: extraction succeeded, `steps` is
a non-empty array, and at least one step survives normalization. -/
def parsedPathTaken (raw : List Char) : Prop :=
  ∃ j stepsArr, extractJsonObject raw = some j ∧
    jsGet j ("steps".toList) = some (.arr stepsArr) ∧
    stepsArr.toList ≠ [] ∧
    (stepsArr.toList.mapIdx fun i st => normalizeStep i st).reduceOption ≠ []

/-- The step/action task texts of a canonical plan. -/
def tasksOf (p : StructuredPlan) : List (List (List Char)) :=
  p.steps.map fun st => st.actions.map fun a => a.task

/-- The step/action task texts of a re-parsed plan. -/
def parsedTasksOf (q : ParsedPlan) : List (List (List Char)) :=
  q.steps.map fun st => st.actions.map fun a => a.task

/-! ## Claim C8 — trailing-comma tolerance -/

/-- The exact input string of the claim,
`{"steps":[{"title":"A","phase":"soil","actions":[{"task":"Till soil",},],},]}`. -/
def trailingCommaInput : List Char :=
  ("\x7b\"steps\":[\x7b\"title\":\"A\",\"phase\":\"soil\",\"actions\":[\x7b\"task\":\"Till soil\",\x7d,],\x7d,]\x7d").toList

/-- C8: the exact trailing-comma input — which strict `JSON.parse` rejects —
normalizes successfully for every context: the brace-slice retry after
`stripTrailingCommas` parses it, and the canonical plan has exactly one step
with exactly one action whose task is `"Till soil"`. -/
theorem normalizeStructuredPlan_trailing_comma :
    ∀ ctx : PlanContext,
      safeJsonParse (jsTrim trailingCommaInput) = none ∧
      (extractJsonObject trailingCommaInput).isSome = true ∧
      (normalizeStructuredPlan trailingCommaInput ctx).steps.map
          (fun st => st.actions.map (fun a => a.task)) =
        [["Till soil".toList]] := by
  intro ctx
  refine ⟨by decide, by decide, ?_⟩
  rfl

/-! ## Claim C6 — phase defaulting -/

/-- A step whose `phase` is `"Growing"`: sanitized and lowercased it is
`"growing"`, not one of the six taxonomy values. -/
def unknownPhaseInput : List Char :=
  ("\x7b\"steps\":[\x7b\"phase\":\"Growing\",\"actions\":[\x7b\"task\":\"Water the field daily\"\x7d]\x7d]\x7d").toList

def phaseCtx : PlanContext := ⟨"Maize".toList, 2, "sunny".toList⟩

/-- C6 counterexample: the claim says a step with a phase outside
`{soil, planting, water, fertilizer, protection, harvest}` carries phase
`"planting"` in the canonical plan; on this input the normalized step keeps
the unrecognized `"growing"` — `normalizeStructuredPlan` has no taxonomy
check on `phase` (unlike `priority`, `severity` and `risk_level`). -/
theorem normalizeStructuredPlan_phase_unrecognized_kept_cex :
    (normalizeStructuredPlan unknownPhaseInput phaseCtx).steps.map (fun st => st.phase) =
      ["growing".toList] ∧
    phaseOrder.contains ("growing".toList) = false ∧
    "growing".toList ≠ "planting".toList := by
  exact ⟨by rfl, by decide, by decide⟩

/-- C6 amended: `normalizeStructuredPlan` defaults a step's phase to
`"planting"` exactly when the sanitized phase is empty (the field absent,
falsy, or sanitized away); a non-empty sanitized value is kept lowercased
verbatim, taxonomy or not — and the stored phase is never empty. -/
theorem normalizeStep_phase_default_only_when_empty :
    ∀ (idx : Nat) (v : Json) (r : PlanStep),
      normalizeStep idx v = some r →
      r.phase = (if ((cleanTextVal (jsGet v ("phase".toList))).map lowerCh).isEmpty
        then "planting".toList
        else (cleanTextVal (jsGet v ("phase".toList))).map lowerCh) ∧
      r.phase ≠ [] := by
  intro idx v r h
  simp only [normalizeStep] at h
  split at h
  · exact absurd h (by simp)
  · rw [Option.some.injEq] at h
    subst h
    refine ⟨rfl, ?_⟩
    show (if (List.map lowerCh (cleanTextVal (jsGet v ("phase".toList)))).isEmpty = true
        then "planting".toList
        else List.map lowerCh (cleanTextVal (jsGet v ("phase".toList)))) ≠ []
    split
    · decide
    · next he => simpa [List.isEmpty_iff] using he

/-- C6 amended, witness: a step with no phase field at all gets `"planting"`. -/
theorem normalizeStep_phase_default_witness :
    ∃ r, normalizeStep 0 (.obj (.cons ("actions".toList)
        (.arr (.cons (.obj (.cons ("task".toList) (.str ("Till soil".toList)) .nil)) .nil)) .nil)) = some r ∧
      r.phase = "planting".toList := by
  refine ⟨_, rfl, ?_⟩
  have h := normalizeStep_phase_default_only_when_empty 0
    (.obj (.cons ("actions".toList)
      (.arr (.cons (.obj (.cons ("task".toList) (.str ("Till soil".toList)) .nil)) .nil)) .nil))
    _ rfl
  rw [h.1]
  decide

/-! ## Claim C10 — the implicit JSON guard of the legacy prose parser -/

/-- C10: any text matching both `/"summary"\s*:/` and `/"steps"\s*:/` is
never broken into prose sections — `parsePlanSections` returns `[]`. -/
theorem parsePlanSections_json_guard :
    ∀ s : List Char,
      testKeyPattern ("summary".toList) s = true →
      testKeyPattern ("steps".toList) s = true →
      parsePlanSections s = [] := by
  intro s h1 h2
  unfold parsePlanSections
  split
  · rfl
  · rw [h1, h2]
    rfl

/-- C10 witness: a concrete JSON-shaped text with both key patterns. -/
theorem parsePlanSections_json_guard_witness :
    parsePlanSections ("\"summary\": \x7b\x7d, \"steps\": []".toList) = [] := by
  exact parsePlanSections_json_guard _ (by decide) (by decide)

/-! ## Claim C9 — the area-dependent yield default -/

/-- C9: whenever the parsed plan's `summary.expected_yield_kg` is absent or
not a finite number (and always in the synthesized fallback plan), the
canonical plan's yield is `max(150, Math.round(farmAreaHectares * 3500))`:
never below the floor 150, and monotone in the farm area. -/
theorem expected_yield_default :
    ∀ (raw : List Char) (ctx : PlanContext),
      ((∀ j, extractJsonObject raw = some j →
          jsToNumberOpt (jsGetOpt (jsGet j ("summary".toList)) ("expected_yield_kg".toList)) = none) →
        (normalizeStructuredPlan raw ctx).summary.expected_yield_kg =
          ⟨max 150 (jsRound (ctx.farmAreaHectares * 3500)), 0⟩) ∧
      (buildFallbackPlan raw ctx).summary.expected_yield_kg =
        ⟨max 150 (jsRound (ctx.farmAreaHectares * 3500)), 0⟩ ∧
      (150 : ℚ) ≤ JNum.toQ ⟨max 150 (jsRound (ctx.farmAreaHectares * 3500)), 0⟩ ∧
      (∀ a b : ℚ, a ≤ b →
        max 150 (jsRound (a * 3500)) ≤ max 150 (jsRound (b * 3500))) := by
  intro raw ctx
  have hfb : (buildFallbackPlan raw ctx).summary.expected_yield_kg =
      ⟨max 150 (jsRound (ctx.farmAreaHectares * 3500)), 0⟩ := rfl
  refine ⟨?_, hfb, ?_, ?_⟩
  · intro h
    unfold normalizeStructuredPlan
    split
    · exact hfb
    · next j hj =>
      split
      · next stepsArr hsteps =>
        split
        · exact hfb
        · dsimp only
          split
          · exact hfb
          · simp only [normalizeSummary, h j hj, Option.getD]
      · exact hfb
  · rw [JNum.toQ]
    push_cast
    rw [pow_zero, div_one]
    exact_mod_cast le_max_left 150 (jsRound (ctx.farmAreaHectares * 3500))
  · intro a b hab
    refine max_le_max le_rfl ?_
    apply Int.floor_le_floor
    have : a * 3500 ≤ b * 3500 := by nlinarith
    linarith

/-! ## Claim C2 — the empty-response behavior -/

/-- A 2xx body whose single `"text"`-typed segment is the empty string: the
concatenated text is empty. -/
def emptyTextBody : Json :=
  .obj (.cons ("content".toList)
    (.arr (.cons (.obj (.cons ("type".toList) (.str ("text".toList))
      (.cons ("text".toList) (.str []) .nil))) .nil)) .nil)

/-- The oracle for the counterexample: the configured model answers 2xx with
empty text; any other candidate would be observable in the request trace. -/
def emptyRespFetch : List Char → FetchResult := fun m =>
  if m = "modelA".toList then .httpOk (some emptyTextBody) else .transportError []

/-- C2 counterexample: the claim says an empty 2xx reply is an error scoped to
that model and the loop continues to the next candidate; in fact
`generateFarmingPlan` throws right there — the request trace stops at
`modelA` (the next candidates, starting with `claude-haiku-4-5-20251001`, are
never requested) and the loop's outcome is the thrown error. -/
theorem generateFarmingPlan_empty_response_cex :
    generateFarmingPlan ("k".toList) ("modelA".toList) emptyRespFetch ⟨"c".toList, 1, []⟩ =
      (["modelA".toList],
       .error ("Claude returned an empty response for model modelA.".toList)) := by
  rfl

/-- C2 amended: when a candidate's response is 2xx but the concatenation of
its `"text"`-typed segments is empty, `generateFarmingPlan` throws
`Claude returned an empty response for model <m>.` at once: the candidate
loop aborts and no further candidate is requested. -/
theorem tryModels_empty_response_aborts :
    ∀ (fetchx : List Char → FetchResult) (ctx : PlanContext) (model : List Char)
      (rest : List (List Char)) (lastErr : Option (List Char)) (data : Json),
      fetchx model = .httpOk (some data) →
      extractRespText data = [] →
      tryModels fetchx ctx (model :: rest) lastErr =
        ([model],
         .error ("Claude returned an empty response for model ".toList ++ model ++ ".".toList)) := by
  intro fetchx ctx model rest lastErr data hf ht
  unfold tryModels
  rw [hf]
  simp [ht]

/-- C2 amended, witness: the loop with two candidates stops at the first. -/
theorem tryModels_empty_response_aborts_witness :
    tryModels emptyRespFetch ⟨"c".toList, 1, []⟩ ["modelA".toList, "modelB".toList] none =
      (["modelA".toList],
       .error ("Claude returned an empty response for model ".toList ++ "modelA".toList ++ ".".toList)) :=
  tryModels_empty_response_aborts emptyRespFetch ⟨"c".toList, 1, []⟩ ("modelA".toList)
    ["modelB".toList] none emptyTextBody (by decide) (by decide)

/-! ## Claim C3 — model fallback order -/

/-- C3: with candidates `[A, B, C]`, a 404 from `A` whose derived message
contains "model", and a successful non-empty reply from `B`: the loop requests
exactly `A` then `B`, returns the serialized plan normalized from `B`'s text,
and never requests `C`. -/
theorem tryModels_model_fallback :
    ∀ (fetchx : List Char → FetchResult) (ctx : PlanContext) (A B C : List Char)
      (ej : Option Json) (et : Option (List Char)) (data : Json),
      fetchx A = .httpError 404 ej et →
      containsLowerSub ("model".toList) (deriveErrMsg 404 A ej et) = true →
      fetchx B = .httpOk (some data) →
      extractRespText data ≠ [] →
      C ≠ A → C ≠ B →
      tryModels fetchx ctx [A, B, C] none =
        ([A, B], .ok (renderJson (structuredPlanToJson
          (normalizeStructuredPlan (extractRespText data) ctx)))) ∧
      C ∉ (tryModels fetchx ctx [A, B, C] none).1 := by
  intro fetchx ctx A B C ej et data hA hmsg hB hText hCA hCB
  have hempty : (extractRespText data).isEmpty = false := by
    simpa [List.isEmpty_iff] using hText
  have key : tryModels fetchx ctx [A, B, C] none =
      ([A, B], .ok (renderJson (structuredPlanToJson
        (normalizeStructuredPlan (extractRespText data) ctx)))) := by
    unfold tryModels
    rw [hA]
    simp only [hmsg]
    rw [if_pos (by simp)]
    unfold tryModels
    rw [hB]
    simp [hempty]
  exact ⟨key, by simp [key, hCA, hCB]⟩

/-- A success body with one `"text"` segment reading `hello`. -/
def helloBody : Json :=
  .obj (.cons ("content".toList)
    (.arr (.cons (.obj (.cons ("type".toList) (.str ("text".toList))
      (.cons ("text".toList) (.str ("hello".toList)) .nil))) .nil)) .nil)

def fallbackFetch : List Char → FetchResult := fun m =>
  if m = "modelA".toList then .httpError 404 none none
  else if m = "modelB".toList then .httpOk (some helloBody)
  else .transportError []

/-- C3 witness at concrete candidates and oracle. -/
theorem tryModels_model_fallback_witness :
    tryModels fallbackFetch ⟨"c".toList, 1, []⟩
        ["modelA".toList, "modelB".toList, "modelC".toList] none =
      (["modelA".toList, "modelB".toList],
       .ok (renderJson (structuredPlanToJson
         (normalizeStructuredPlan ("hello".toList) ⟨"c".toList, 1, []⟩)))) ∧
    "modelC".toList ∉
      (tryModels fallbackFetch ⟨"c".toList, 1, []⟩
        ["modelA".toList, "modelB".toList, "modelC".toList] none).1 := by
  have h := tryModels_model_fallback fallbackFetch ⟨"c".toList, 1, []⟩
    ("modelA".toList) ("modelB".toList) ("modelC".toList) none none helloBody
    (by decide) (by decide) (by decide) (by decide) (by decide) (by decide)
  exact ⟨h.1, h.2⟩

/-! ## Walkthrough lemmas (claims C4 and C5) -/

theorem mapIdx_map_comp {α β γ : Type} (g : β → γ) (f : ℕ → α → β) (l : List α) :
    (l.mapIdx f).map g = l.mapIdx fun i a => g (f i a) := by
  simp [List.mapIdx_eq_enum_map, List.map_map, Function.comp_def, Function.uncurry]

theorem mapIdx_index_only {α β : Type} (g : ℕ → β) (l : List α) :
    l.mapIdx (fun i _ => g i) = (List.range l.length).map g := by
  rw [List.mapIdx_eq_enum_map]
  calc List.map (Function.uncurry fun i _ => g i) l.enum
      = List.map (g ∘ Prod.fst) l.enum := by
        simp [Function.uncurry, Function.comp_def]
    _ = List.map g (l.enum.map Prod.fst) := by rw [List.map_map]
    _ = (List.range l.length).map g := by rw [List.enum_map_fst]

theorem mapIdx_elem_only {α β : Type} (h : α → β) (l : List α) :
    l.mapIdx (fun _ a => h a) = l.map h := by
  rw [List.mapIdx_eq_enum_map]
  calc List.map (Function.uncurry fun _ a => h a) l.enum
      = List.map (h ∘ Prod.snd) l.enum := by
        simp [Function.uncurry, Function.comp_def]
    _ = List.map h (l.enum.map Prod.snd) := by rw [List.map_map]
    _ = l.map h := by rw [List.enum_map_snd]

/-- The two totals of PlantScreen.js agree: the flattened task list is as long
as the per-section action-count sum. -/
theorem totalTaskCount_eq_totalActionCount (sections : List PlanSection) :
    totalTaskCount sections = totalActionCount sections := by
  unfold totalTaskCount walkthroughKeys totalActionCount
  rw [List.length_flatten, mapIdx_map_comp]
  congr 1
  calc sections.mapIdx (fun i sec => (sec.actionItems.mapIdx fun j _ => getActionKey i j).length)
      = sections.mapIdx (fun _ sec => sec.actionItems.length) := by
        simp [List.length_mapIdx]
    _ = sections.map (fun sec => sec.actionItems.length) := mapIdx_elem_only _ _

/-- `completedActionCount` counts exactly the flattened keys that are in the
completion set. -/
theorem completedActionCount_eq_filter (sections : List PlanSection) (st : WalkState) :
    completedActionCount sections st =
      ((walkthroughKeys sections).filter fun k => k ∈ st.completedActions).length := by
  unfold completedActionCount walkthroughKeys
  rw [List.filter_flatten, List.length_flatten, List.map_map, mapIdx_map_comp]
  rfl

/-- With every key complete, the count is the whole total. -/
theorem completedActionCount_full (sections : List PlanSection) (cur : Nat) :
    completedActionCount sections ⟨(walkthroughKeys sections).toFinset, cur⟩ =
      totalActionCount sections := by
  rw [completedActionCount_eq_filter, ← totalTaskCount_eq_totalActionCount]
  unfold totalTaskCount
  congr 1
  exact List.filter_eq_self.mpr fun k hk => by simpa using hk

/-- The state after `k` initial `completeAndAdvance` calls: the first `k`
keys are complete and the cursor is `min k (N - 1)`. -/
theorem runWalkOps_replicate_completeAdv (sections : List PlanSection)
    (hN : 0 < totalTaskCount sections) :
    ∀ k, k ≤ totalTaskCount sections →
      runWalkOps sections (List.replicate k .completeAdv) =
        ⟨((walkthroughKeys sections).take k).toFinset,
         min k (totalTaskCount sections - 1)⟩ := by
  intro k
  induction k with
  | zero =>
    intro _
    simp [runWalkOps, resetWalkthrough]
  | succ k ih =>
    intro hk1
    have hk : k < totalTaskCount sections := by omega
    rw [List.replicate_succ', runWalkOps, List.foldl_append, ← runWalkOps, ih (by omega)]
    show completeAndAdvance sections _ = _
    have hbd : boundedTaskIdx sections
        ⟨((walkthroughKeys sections).take k).toFinset, min k (totalTaskCount sections - 1)⟩ = k := by
      unfold boundedTaskIdx
      rw [if_pos hN]
      simp only []
      omega
    have hkey : currentTaskKey sections
        ⟨((walkthroughKeys sections).take k).toFinset, min k (totalTaskCount sections - 1)⟩ =
        some ((walkthroughKeys sections).get ⟨k, by unfold totalTaskCount at hk; omega⟩) := by
      unfold currentTaskKey
      simp only [hbd]
      exact List.getElem?_eq_getElem (by unfold totalTaskCount at hk; omega)
    unfold completeAndAdvance
    rw [hkey]
    dsimp only
    have hins : insert ((walkthroughKeys sections).get ⟨k, by unfold totalTaskCount at hk; omega⟩)
        ((walkthroughKeys sections).take k).toFinset =
        ((walkthroughKeys sections).take (k + 1)).toFinset := by
      rw [List.take_succ, List.getElem?_eq_getElem (by unfold totalTaskCount at hk; omega)]
      rw [List.toFinset_append]
      ext y
      simp [or_comm]
    by_cases hlast : k < totalTaskCount sections - 1
    · rw [if_pos (by rw [hbd]; exact hlast)]
      unfold goToTask
      rw [if_neg (by omega)]
      simp only [hbd, hins]
      congr 1
      omega
    · rw [if_neg (by rw [hbd]; exact hlast)]
      simp only [hins]
      congr 1
      omega

/-- C4: from a freshly reset walkthrough over a plan with `N ≥ 1` actions,
`N` calls of `completeAndAdvance` give 100% progress, every action complete,
and cursor `N - 1` (not `N`); an `(N+1)`-th call changes nothing — neither
the cursor nor the completion set. -/
theorem walkthrough_monotonic_progress :
    ∀ sections : List PlanSection,
      1 ≤ totalActionCount sections →
      progressPercent sections
          (runWalkOps sections (List.replicate (totalActionCount sections) .completeAdv)) = 100 ∧
      (∀ k ∈ walkthroughKeys sections,
        k ∈ (runWalkOps sections
          (List.replicate (totalActionCount sections) .completeAdv)).completedActions) ∧
      (runWalkOps sections
          (List.replicate (totalActionCount sections) .completeAdv)).currentTaskIdx =
        totalActionCount sections - 1 ∧
      completeAndAdvance sections
          (runWalkOps sections (List.replicate (totalActionCount sections) .completeAdv)) =
        runWalkOps sections (List.replicate (totalActionCount sections) .completeAdv) := by
  intro sections hN1
  have htt := totalTaskCount_eq_totalActionCount sections
  have hN : 0 < totalTaskCount sections := by omega
  have hrun := runWalkOps_replicate_completeAdv sections hN (totalTaskCount sections) le_rfl
  rw [← htt]
  rw [List.take_of_length_le (by unfold totalTaskCount; omega)] at hrun
  rw [hrun]
  have hfull : ∀ k ∈ walkthroughKeys sections,
      k ∈ (walkthroughKeys sections).toFinset := fun k hk => List.mem_toFinset.mpr hk
  refine ⟨?_, hfull, by simp, ?_⟩
  · unfold progressPercent
    rw [if_pos (by omega)]
    rw [completedActionCount_full]
    have hq : ((totalActionCount sections : ℚ)) ≠ 0 := Nat.cast_ne_zero.mpr (by omega)
    rw [div_self hq, one_mul]
    unfold jsRound
    apply Int.floor_eq_iff.mpr
    constructor
    · norm_num
    · norm_num
  · unfold completeAndAdvance
    have hbd : boundedTaskIdx sections
        ⟨(walkthroughKeys sections).toFinset, min (totalTaskCount sections) (totalTaskCount sections - 1)⟩ =
        totalTaskCount sections - 1 := by
      unfold boundedTaskIdx
      rw [if_pos hN]
      simp only []
      omega
    have hkey : currentTaskKey sections
        ⟨(walkthroughKeys sections).toFinset, min (totalTaskCount sections) (totalTaskCount sections - 1)⟩ =
        some ((walkthroughKeys sections).get ⟨totalTaskCount sections - 1, by unfold totalTaskCount at hN ⊢; omega⟩) := by
      unfold currentTaskKey
      simp only [hbd]
      exact List.getElem?_eq_getElem (by unfold totalTaskCount at hN ⊢; omega)
    rw [hkey]
    dsimp only
    rw [if_neg (by rw [hbd]; omega)]
    have : insert ((walkthroughKeys sections).get ⟨totalTaskCount sections - 1, by unfold totalTaskCount at hN ⊢; omega⟩)
        (walkthroughKeys sections).toFinset = (walkthroughKeys sections).toFinset :=
      Finset.insert_eq_self.mpr (List.mem_toFinset.mpr (List.getElem_mem _))
    simp only [this]

/-- C4 witness: a concrete two-section plan with three actions. -/
theorem walkthrough_monotonic_progress_witness :
    progressPercent
        [⟨"A".toList, [], ["t1".toList, "t2".toList]⟩, ⟨"B".toList, [], ["t3".toList]⟩]
        (runWalkOps
          [⟨"A".toList, [], ["t1".toList, "t2".toList]⟩, ⟨"B".toList, [], ["t3".toList]⟩]
          (List.replicate 3 .completeAdv)) = 100 ∧
    (runWalkOps
        [⟨"A".toList, [], ["t1".toList, "t2".toList]⟩, ⟨"B".toList, [], ["t3".toList]⟩]
        (List.replicate 3 .completeAdv)).currentTaskIdx = 2 := by
  have h := walkthrough_monotonic_progress
    [⟨"A".toList, [], ["t1".toList, "t2".toList]⟩, ⟨"B".toList, [], ["t3".toList]⟩]
    (by decide)
  exact ⟨h.1, h.2.2.1⟩

/-- C5: for every state reachable by any operation sequence from a fresh
walkthrough, the effective cursor is within `[0, totalActionCount)` whenever
the plan has actions; with zero actions the walkthrough is inert — the state
is the initial one and every operation fixes it. -/
theorem walkthrough_cursor_invariant :
    ∀ (sections : List PlanSection) (ops : List WalkOp),
      (0 < totalActionCount sections →
        boundedTaskIdx sections (runWalkOps sections ops) < totalActionCount sections) ∧
      (totalActionCount sections = 0 →
        runWalkOps sections ops = resetWalkthrough ∧
        ∀ op, applyWalkOp sections (runWalkOps sections ops) op = runWalkOps sections ops) := by
  intro sections ops
  have htt := totalTaskCount_eq_totalActionCount sections
  constructor
  · intro hpos
    unfold boundedTaskIdx
    rw [if_pos (by omega)]
    omega
  · intro hzero
    have hT : totalTaskCount sections = 0 := by omega
    have hkeys : walkthroughKeys sections = [] := by
      unfold totalTaskCount at hT
      exact List.length_eq_zero.mp hT
    have hfix : ∀ op st, st = resetWalkthrough → applyWalkOp sections st op = resetWalkthrough := by
      intro op st hst
      subst hst
      cases op with
      | toggle =>
        show toggleCurrentTask sections resetWalkthrough = resetWalkthrough
        unfold toggleCurrentTask currentTaskKey
        rw [hkeys]
        rfl
      | completeAdv =>
        show completeAndAdvance sections resetWalkthrough = resetWalkthrough
        unfold completeAndAdvance currentTaskKey
        rw [hkeys]
        rfl
      | goTo idx =>
        show goToTask sections resetWalkthrough idx = resetWalkthrough
        unfold goToTask
        rw [if_pos hT]
      | reset => rfl
    have hrun : runWalkOps sections ops = resetWalkthrough := by
      unfold runWalkOps
      induction ops with
      | nil => rfl
      | cons op rest ih =>
        rw [List.foldl_cons, hfix op resetWalkthrough rfl]
        exact ih
    exact ⟨hrun, fun op => by rw [hrun]; exact hfix op resetWalkthrough rfl⟩

/-- C5 witness: the bound at a nonempty plan, and inertness at an empty one. -/
theorem walkthrough_cursor_invariant_witness :
    boundedTaskIdx [⟨"A".toList, [], ["t1".toList]⟩]
        (runWalkOps [⟨"A".toList, [], ["t1".toList]⟩] [.goTo 5]) <
      totalActionCount [⟨"A".toList, [], ["t1".toList]⟩] ∧
    runWalkOps [] [.toggle, .completeAdv, .goTo 3] = resetWalkthrough := by
  constructor
  · exact (walkthrough_cursor_invariant [⟨"A".toList, [], ["t1".toList]⟩] [.goTo 5]).1 (by decide)
  · exact ((walkthrough_cursor_invariant [] [.toggle, .completeAdv, .goTo 3]).2 (by decide)).1

/-! ## Claim C1 — total normalization -/

theorem mem_mapIdx_exists {α β : Type} {l : List α} {f : ℕ → α → β} {b : β}
    (h : b ∈ l.mapIdx f) : ∃ i a, a ∈ l ∧ b = f i a := by
  rw [List.mapIdx_eq_enum_map] at h
  obtain ⟨p, hp, hfp⟩ := List.mem_map.mp h
  refine ⟨p.1, p.2, ?_, hfp.symm⟩
  have := List.mem_enum_iff_getElem?.mp hp
  exact List.getElem?_mem this

/-- Every line `buildFallbackPlan` extracts passed the twelve-character
filter, so none is empty. -/
theorem extractedTasks_ne_nil (raw : List Char) :
    ∀ t ∈ extractedTasks raw, t ≠ [] := by
  intro t ht
  unfold extractedTasks at ht
  have ht2 := List.mem_of_mem_take ht
  have := (List.mem_filter.mp ht2).2
  have hlen : 12 ≤ t.length := by
    cases h12 : decide (12 ≤ t.length) with
    | true => exact of_decide_eq_true h12
    | false => simp [h12] at this
  intro hnil
  rw [hnil] at hlen
  simp at hlen

/-- Every default task is nonempty. -/
theorem defaultTasks_ne_nil (crop : List Char) :
    ∀ t ∈ defaultTasks crop, t ≠ [] := by
  intro t ht
  unfold defaultTasks at ht
  simp only [List.mem_cons, List.not_mem_nil, or_false] at ht
  rcases ht with rfl | rfl | rfl | rfl | rfl | rfl | rfl | rfl <;> simp

/-- The synthesized fallback plan always has a step, and every step one
action with nonempty task text. -/
theorem buildFallbackPlan_steps_good (raw : List Char) (ctx : PlanContext) :
    (buildFallbackPlan raw ctx).steps ≠ [] ∧
      ∀ st ∈ (buildFallbackPlan raw ctx).steps,
        st.actions ≠ [] ∧ ∀ a ∈ st.actions, a.task ≠ [] := by
  have hsteps : (buildFallbackPlan raw ctx).steps =
      ((if 4 ≤ (extractedTasks raw).length then extractedTasks raw
        else defaultTasks ctx.crop).take 8).mapIdx
        (fun idx task => fallbackStep ctx.crop idx task) := rfl
  have htasksne : (if 4 ≤ (extractedTasks raw).length then extractedTasks raw
      else defaultTasks ctx.crop) ≠ [] := by
    split
    · next h4 =>
      intro hnil
      rw [hnil] at h4
      simp at h4
    · simp [defaultTasks]
  have htasksgood : ∀ t ∈ (if 4 ≤ (extractedTasks raw).length then extractedTasks raw
      else defaultTasks ctx.crop), t ≠ [] := by
    split
    · exact extractedTasks_ne_nil raw
    · exact defaultTasks_ne_nil ctx.crop
  constructor
  · rw [hsteps]
    intro hnil
    have := congrArg List.length hnil
    rw [List.length_mapIdx, List.length_take] at this
    simp only [List.length_nil] at this
    have := Nat.min_eq_zero_iff.mp (by omega : min 8 (if 4 ≤ (extractedTasks raw).length then extractedTasks raw else defaultTasks ctx.crop).length = 0)
    rcases this with h | h
    · omega
    · exact htasksne (List.length_eq_zero.mp h)
  · intro st hst
    rw [hsteps] at hst
    obtain ⟨i, task, htask, rfl⟩ := mem_mapIdx_exists hst
    have htaskne : task ≠ [] := htasksgood task (List.mem_of_mem_take htask)
    refine ⟨by simp [fallbackStep], ?_⟩
    intro a ha
    simp only [fallbackStep, List.mem_singleton] at ha
    subst ha
    exact htaskne

/-- A step `normalizeStructuredPlan` keeps has at least one action, and each
kept action's task is nonempty. -/
theorem normalizeStep_actions_good (idx : Nat) (v : Json) (r : PlanStep)
    (h : normalizeStep idx v = some r) :
    r.actions ≠ [] ∧ ∀ a ∈ r.actions, a.task ≠ [] := by
  simp only [normalizeStep] at h
  split at h
  · exact absurd h (by simp)
  · next hne =>
    rw [Option.some.injEq] at h
    subst h
    constructor
    · simpa [List.isEmpty_iff] using hne
    · intro a ha
      simp only [] at ha
      split at ha
      · next xs hxs =>
        have := (List.mem_filter.mp ha).2
        simpa [List.isEmpty_iff] using this
      · exact absurd ha (List.not_mem_nil a)

/-- C1: normalization is total — for every raw text and context the canonical
plan has at least one step, and every step at least one action with nonempty
task text (the fallback synthesizer guarantees this even when JSON extraction
or schema validation fails). -/
theorem normalizeStructuredPlan_total :
    ∀ (raw : List Char) (ctx : PlanContext),
      (normalizeStructuredPlan raw ctx).steps ≠ [] ∧
      ∀ st ∈ (normalizeStructuredPlan raw ctx).steps,
        st.actions ≠ [] ∧ ∀ a ∈ st.actions, a.task ≠ [] := by
  intro raw ctx
  have hfb := buildFallbackPlan_steps_good raw ctx
  unfold normalizeStructuredPlan
  split
  · exact hfb
  · split
    · split
      · exact hfb
      · dsimp only
        split
        · exact hfb
        · next hne =>
          constructor
          · simpa [List.isEmpty_iff] using hne
          · intro st hst
            simp only [] at hst
            have := List.reduceOption_mem_iff.mp hst
            obtain ⟨i, v, _, hv⟩ := mem_mapIdx_exists this
            exact normalizeStep_actions_good i v st hv.symm
    · exact hfb

/-! ## Round-trip development, part 1: decimal digits (claim C7) -/

/-- Little-endian digit value (the fold `parseJNum`'s digit run denotes). -/
def valRev (L : List Nat) : Nat := L.foldr (fun d acc => acc * 10 + d) 0

theorem natDigitsRev_zero (f : Nat) : natDigitsRev f 0 = [] := by
  cases f <;> simp [natDigitsRev]

theorem natDigitsRev_val : ∀ f n, n ≤ f → valRev (natDigitsRev f n) = n := by
  intro f
  induction f with
  | zero =>
    intro n hn
    interval_cases n
    simp [natDigitsRev, valRev]
  | succ f ih =>
    intro n hn
    by_cases h0 : n = 0
    · subst h0
      simp [natDigitsRev, valRev]
    · have hrec := ih (n / 10) (by omega)
      simp only [natDigitsRev, if_neg h0, valRev, List.foldr_cons]
      rw [show (natDigitsRev f (n / 10)).foldr (fun d acc => acc * 10 + d) 0 = n / 10 from hrec]
      omega

theorem natDigitsRev_lt10 : ∀ f n d, d ∈ natDigitsRev f n → d < 10 := by
  intro f
  induction f with
  | zero => intro n d hd; simp [natDigitsRev] at hd
  | succ f ih =>
    intro n d hd
    by_cases h0 : n = 0
    · subst h0; simp [natDigitsRev] at hd
    · simp only [natDigitsRev, if_neg h0, List.mem_cons] at hd
      rcases hd with rfl | hd
      · omega
      · exact ih _ _ hd

theorem natDigitsRev_ne_nil (f n : Nat) (h0 : n ≠ 0) (hf : n ≤ f) :
    natDigitsRev f n ≠ [] := by
  cases f with
  | zero => omega
  | succ f => simp [natDigitsRev, h0]

theorem natDigitsRev_getLast : ∀ f n, n ≠ 0 → n ≤ f →
    ∀ d, (natDigitsRev f n).getLast? = some d → d ≠ 0 := by
  intro f
  induction f with
  | zero => intro n h0 hf; omega
  | succ f ih =>
    intro n h0 hf d hd
    simp only [natDigitsRev, if_neg h0] at hd
    by_cases hq : n / 10 = 0
    · rw [hq, natDigitsRev_zero] at hd
      simp only [List.getLast?_singleton, Option.some.injEq] at hd
      omega
    · have hne := natDigitsRev_ne_nil f (n / 10) hq (by omega)
      cases hL : natDigitsRev f (n / 10) with
      | nil => exact absurd hL hne
      | cons x xs =>
        rw [hL, List.getLast?_cons_cons] at hd
        exact ih (n / 10) hq (by omega) d (by rw [hL]; exact hd)

theorem digit_char_val (d : Nat) (h : d < 10) :
    (Char.ofNat (48 + d)).toNat = 48 + d ∧ isDigitCh (Char.ofNat (48 + d)) = true := by
  interval_cases d <;> exact ⟨by decide, by decide⟩

theorem natChars_ne_nil (n : Nat) : natChars n ≠ [] := by
  unfold natChars
  split
  · simp
  · next h0 =>
    simp only [ne_eq, List.reverse_eq_nil_iff, List.map_eq_nil_iff]
    exact natDigitsRev_ne_nil n n h0 le_rfl

theorem natChars_all_digits (n : Nat) : ∀ c ∈ natChars n, isDigitCh c = true := by
  intro c hc
  unfold natChars at hc
  split at hc
  · simp only [List.mem_singleton] at hc
    subst hc
    decide
  · simp only [List.mem_reverse, List.mem_map] at hc
    obtain ⟨d, hd, rfl⟩ := hc
    exact (digit_char_val d (natDigitsRev_lt10 _ _ _ hd)).2

theorem foldr_digit_chars (L : List Nat) (hL : ∀ d ∈ L, d < 10) :
    (L.map fun d => Char.ofNat (48 + d)).foldr (fun c acc => acc * 10 + (c.toNat - 48)) 0 =
      valRev L := by
  induction L with
  | nil => simp [valRev]
  | cons d t ih =>
    have hd := hL d (by simp)
    have ht := ih fun x hx => hL x (by simp [hx])
    simp only [List.map_cons, List.foldr_cons, ht, valRev]
    rw [(digit_char_val d hd).1]
    omega

theorem digitsVal_natChars (n : Nat) : digitsVal (natChars n) = n := by
  unfold natChars digitsVal
  split
  · next h0 => subst h0; decide
  · rw [List.foldl_reverse]
    exact (foldr_digit_chars (natDigitsRev n n)
      (fun d hd => natDigitsRev_lt10 _ _ _ hd)).trans (natDigitsRev_val n n le_rfl)

theorem mem_of_getLastOpt {α : Type} : ∀ {l : List α} {a : α}, l.getLast? = some a → a ∈ l := by
  intro l
  induction l with
  | nil => intro a h; simp at h
  | cons x t ih =>
    intro a h
    cases t with
    | nil => simp_all
    | cons y ys =>
      rw [List.getLast?_cons_cons] at h
      exact List.mem_cons_of_mem x (ih h)

theorem natChars_head_ne_zero (n : Nat) (h0 : n ≠ 0) :
    ∀ c, (natChars n).head? = some c → c ≠ '0' := by
  intro c hc
  unfold natChars at hc
  rw [if_neg h0, List.head?_reverse, List.getLast?_map] at hc
  match hlast : (natDigitsRev n n).getLast? with
  | none => rw [hlast] at hc; simp at hc
  | some d =>
    rw [hlast] at hc
    have hc2 : Char.ofNat (48 + d) = c := Option.some.inj hc
    subst hc2
    have hd10 : d < 10 := natDigitsRev_lt10 n n d (mem_of_getLastOpt hlast)
    have hdne : d ≠ 0 := natDigitsRev_getLast n n h0 le_rfl d hlast
    intro hcon
    have := congrArg Char.toNat hcon
    rw [(digit_char_val d hd10).1] at this
    simp only [show ('0' : Char).toNat = 48 from rfl] at this
    omega

/-- `spanDigits` takes exactly a leading digit run. -/
theorem spanDigits_stop (rest : List Char)
    (h : ∀ c, rest.head? = some c → isDigitCh c = false) :
    spanDigits rest = ([], rest) := by
  cases rest with
  | nil => rfl
  | cons c cs =>
    have := h c rfl
    simp [spanDigits, this]

theorem spanDigits_append (ds rest : List Char) (hds : ∀ c ∈ ds, isDigitCh c = true)
    (hrest : ∀ c, rest.head? = some c → isDigitCh c = false) :
    spanDigits (ds ++ rest) = (ds, rest) := by
  induction ds with
  | nil => simpa using spanDigits_stop rest hrest
  | cons c t ih =>
    have hc := hds c (by simp)
    have ht := ih fun x hx => hds x (by simp [hx])
    simp [spanDigits, hc, ht]

theorem digitsVal_from (acc : Nat) (l : List Char) :
    l.foldl (fun a c => a * 10 + (c.toNat - 48)) acc =
      acc * 10 ^ l.length + digitsVal l := by
  induction l generalizing acc with
  | nil => simp [digitsVal]
  | cons c t ih =>
    simp only [List.foldl_cons, List.length_cons, digitsVal]
    rw [ih (acc * 10 + (c.toNat - 48)), ih (0 * 10 + (c.toNat - 48))]
    ring

theorem digitsVal_append (a b : List Char) :
    digitsVal (a ++ b) = digitsVal a * 10 ^ b.length + digitsVal b := by
  show (a ++ b).foldl (fun acc c => acc * 10 + (c.toNat - 48)) 0 = _
  rw [List.foldl_append]
  exact digitsVal_from _ b

theorem digitsVal_replicate_zero_append (k : Nat) (ds : List Char) :
    digitsVal (List.replicate k '0' ++ ds) = digitsVal ds := by
  induction k with
  | zero => simp
  | succ k ih =>
    rw [List.replicate_succ, List.cons_append]
    show digitsVal ('0' :: (List.replicate k '0' ++ ds)) = digitsVal ds
    unfold digitsVal at ih ⊢
    simpa using ih

/-! ## Round-trip development, part 2: numeric literals (claim C7) -/

/-- Characters that may legitimately follow a complete JSON numeric literal
(in rendered output: a comma, a closing bracket or brace, or nothing). -/
def numStopCh (c : Char) : Bool :=
  !(isDigitCh c || c == '.' || c == 'e' || c == 'E')

/-- The zero-padded digit block `renderJNumBody` builds before it places the
decimal point. -/
def padDigits (a e : Nat) : List Char :=
  if (natChars a).length < e + 1 then
    List.replicate (e + 1 - (natChars a).length) '0' ++ natChars a
  else natChars a

theorem renderJNumBody_eq (a e : Nat) :
    renderJNumBody a e =
      if e = 0 then padDigits a e
      else (padDigits a e).take ((padDigits a e).length - e) ++
        '.' :: (padDigits a e).drop ((padDigits a e).length - e) := rfl

theorem padDigits_all_digits (a e : Nat) : ∀ c ∈ padDigits a e, isDigitCh c = true := by
  intro c hc
  unfold padDigits at hc
  split at hc
  · rw [List.mem_append] at hc
    rcases hc with hc | hc
    · rw [List.eq_of_mem_replicate hc]; decide
    · exact natChars_all_digits a c hc
  · exact natChars_all_digits a c hc

theorem padDigits_val (a e : Nat) : digitsVal (padDigits a e) = a := by
  unfold padDigits
  split
  · rw [digitsVal_replicate_zero_append, digitsVal_natChars]
  · exact digitsVal_natChars a

theorem padDigits_length (a e : Nat) : e + 1 ≤ (padDigits a e).length := by
  unfold padDigits
  split
  · next h => simp only [List.length_append, List.length_replicate]; omega
  · next h => omega

theorem padDigits_ne_nil (a e : Nat) : padDigits a e ≠ [] := by
  have := padDigits_length a e
  intro h
  rw [h] at this
  simp at this

theorem padDigits_zero (a : Nat) : padDigits a 0 = natChars a := by
  have h1 : 0 < (natChars a).length := List.length_pos.mpr (natChars_ne_nil a)
  unfold padDigits
  rw [if_neg (by omega)]

theorem head_mem_of_headOpt {α : Type} {l : List α} {a : α} (h : l.head? = some a) :
    a ∈ l := by
  cases l with
  | nil => simp at h
  | cons x t =>
    rw [List.head?_cons, Option.some.injEq] at h
    subst h
    exact List.mem_cons_self x t

theorem headOpt_take {α : Type} (l : List α) (n : Nat) (hn : 1 ≤ n) :
    (l.take n).head? = l.head? := by
  cases l with
  | nil => simp
  | cons x t =>
    obtain ⟨m, rfl⟩ : ∃ m, n = m + 1 := ⟨n - 1, by omega⟩
    rw [List.take_succ_cons, List.head?_cons, List.head?_cons]

theorem headOpt_append_left {α : Type} {l : List α} (r : List α) (h : l ≠ []) :
    (l ++ r).head? = l.head? := by
  cases l with
  | nil => exact absurd rfl h
  | cons x t => rfl

theorem guard_false_of (l : List Char) (h : l.head? ≠ some '0' ∨ l.length = 1) :
    (l.head? = some '0' && l.length != 1) = false := by
  rcases h with h | h
  · rw [decide_eq_false h, Bool.false_and]
  · rw [h]
    simp

theorem natChars_guard (a : Nat) :
    ((natChars a).head? = some '0' && (natChars a).length != 1) = false := by
  by_cases h0 : a = 0
  · subst h0; decide
  · apply guard_false_of
    left
    intro hc
    exact natChars_head_ne_zero a h0 '0' hc rfl

theorem padDigits_take_guard (a e : Nat) (he : e ≠ 0) :
    (((padDigits a e).take ((padDigits a e).length - e)).head? = some '0' &&
      ((padDigits a e).take ((padDigits a e).length - e)).length != 1) = false := by
  apply guard_false_of
  unfold padDigits
  split
  · next hlt =>
    right
    have hlen : (List.replicate (e + 1 - (natChars a).length) '0' ++ natChars a).length
        = e + 1 := by
      simp only [List.length_append, List.length_replicate]
      omega
    rw [List.length_take, hlen]
    omega
  · next hge =>
    left
    have h0 : a ≠ 0 := by
      intro h
      subst h
      have hl : (natChars 0).length = 1 := by decide
      omega
    intro hc
    obtain ⟨m, hm⟩ : ∃ m, (natChars a).length - e = m + 1 :=
      ⟨(natChars a).length - e - 1, by omega⟩
    obtain ⟨c, t, hct⟩ := List.exists_cons_of_ne_nil (natChars_ne_nil a)
    rw [hm, hct, List.take_succ_cons, List.head?_cons] at hc
    exact natChars_head_ne_zero a h0 c (by rw [hct]; rfl) (Option.some.inj hc.symm).symm

theorem renderJNumBody_ne_nil (a e : Nat) : renderJNumBody a e ≠ [] := by
  rw [renderJNumBody_eq]
  split
  · exact padDigits_ne_nil a e
  · intro h
    exact absurd (congrArg List.length h)
      (by simp only [List.length_append, List.length_cons, List.length_nil]; omega)

theorem renderJNumBody_head_digit (a e : Nat) :
    ∀ c, (renderJNumBody a e).head? = some c → isDigitCh c = true := by
  intro c hc
  rw [renderJNumBody_eq] at hc
  split at hc
  · exact padDigits_all_digits a e c (head_mem_of_headOpt hc)
  · next he =>
    have h1 : 1 ≤ (padDigits a e).length - e := by
      have := padDigits_length a e
      omega
    have htk : (padDigits a e).take ((padDigits a e).length - e) ≠ [] := by
      intro h
      have := congrArg List.length h
      rw [List.length_take] at this
      simp only [List.length_nil] at this
      have := padDigits_length a e
      omega
    rw [headOpt_append_left _ htk, headOpt_take _ _ h1] at hc
    exact padDigits_all_digits a e c (head_mem_of_headOpt hc)

theorem numStop_spec (rest : List Char)
    (hrest : ∀ c, rest.head? = some c → numStopCh c = true) :
    ∀ c, rest.head? = some c →
      isDigitCh c = false ∧ c ≠ '.' ∧ c ≠ 'e' ∧ c ≠ 'E' := by
  intro c hc
  have h := hrest c hc
  unfold numStopCh at h
  rw [Bool.not_eq_true'] at h
  simp only [Bool.or_eq_false_iff, beq_eq_false_iff_ne, ne_eq] at h
  exact ⟨h.1.1.1, h.1.1.2, h.1.2, h.2⟩

theorem parseJNumAfterSign_renderBody (neg : Bool) (a e : Nat) (rest : List Char)
    (hrest : ∀ c, rest.head? = some c → numStopCh c = true) :
    parseJNumAfterSign neg (renderJNumBody a e ++ rest) =
      some (⟨if neg then -(a : Int) else (a : Int), e⟩, rest) := by
  have hstop := numStop_spec rest hrest
  have hrd : ∀ c, rest.head? = some c → isDigitCh c = false :=
    fun c hc => (hstop c hc).1
  rcases Nat.eq_zero_or_pos e with he | he
  · subst he
    rw [renderJNumBody_eq, if_pos rfl, padDigits_zero]
    unfold parseJNumAfterSign
    rw [spanDigits_append (natChars a) rest (natChars_all_digits a) hrd]
    dsimp only
    rw [if_neg (by simp [List.isEmpty_iff, natChars_ne_nil a]),
      if_neg (by simp [natChars_guard a])]
    split
    · next heq =>
      exfalso
      split at heq
      · exact absurd rfl (hstop '.' rfl).2.1
      · simp at heq
    · next fds r2 heq =>
      split at heq
      · exact absurd rfl (hstop '.' rfl).2.1
      · rw [Option.some.injEq, Prod.mk.injEq] at heq
        obtain ⟨h1, h2⟩ := heq
        subst h1
        subst h2
        split
        · next heq2 =>
          exfalso
          split at heq2
          · exact absurd rfl (hstop 'e' rfl).2.2.1
          · exact absurd rfl (hstop 'E' rfl).2.2.2
          · simp at heq2
        · next ex r3 heq2 =>
          split at heq2
          · exact absurd rfl (hstop 'e' rfl).2.2.1
          · exact absurd rfl (hstop 'E' rfl).2.2.2
          · rw [Option.some.injEq, Prod.mk.injEq] at heq2
            obtain ⟨h1, h2⟩ := heq2
            subst h1
            subst h2
            simp [digitsVal_natChars]
  · have hne : e ≠ 0 := by omega
    rw [renderJNumBody_eq, if_neg hne]
    unfold parseJNumAfterSign
    have hdrop_len : ((padDigits a e).drop ((padDigits a e).length - e)).length = e := by
      rw [List.length_drop]
      have := padDigits_length a e
      omega
    have htake_digits : ∀ c ∈ (padDigits a e).take ((padDigits a e).length - e),
        isDigitCh c = true :=
      fun c hc => padDigits_all_digits a e c (List.mem_of_mem_take hc)
    have hdrop_digits : ∀ c ∈ (padDigits a e).drop ((padDigits a e).length - e),
        isDigitCh c = true :=
      fun c hc => padDigits_all_digits a e c (List.mem_of_mem_drop hc)
    rw [List.append_assoc, List.cons_append,
      spanDigits_append _ _ htake_digits (fun c hc => by
        rw [List.head?_cons, Option.some.injEq] at hc
        subst hc
        decide)]
    dsimp only
    rw [if_neg (by
        simp only [List.isEmpty_iff]
        intro h
        have := congrArg List.length h
        rw [List.length_take] at this
        simp only [List.length_nil] at this
        have := padDigits_length a e
        omega),
      if_neg (by rw [padDigits_take_guard a e hne]; exact Bool.false_ne_true)]
    have hsd : spanDigits ((padDigits a e).drop ((padDigits a e).length - e) ++ rest) =
        ((padDigits a e).drop ((padDigits a e).length - e), rest) :=
      spanDigits_append _ _ hdrop_digits hrd
    have hdnif : ((padDigits a e).drop ((padDigits a e).length - e)).isEmpty = false := by
      rw [Bool.eq_false_iff]
      intro h
      rw [List.isEmpty_iff] at h
      have := congrArg List.length h
      rw [hdrop_len] at this
      simp only [List.length_nil] at this
      omega
    simp only [hsd, hdnif, Bool.false_eq_true, if_false]
    split
    · next heq2 =>
      exfalso
      split at heq2
      · exact absurd rfl (hstop 'e' rfl).2.2.1
      · exact absurd rfl (hstop 'E' rfl).2.2.2
      · simp at heq2
    · next ex r3 heq2 =>
      split at heq2
      · exact absurd rfl (hstop 'e' rfl).2.2.1
      · exact absurd rfl (hstop 'E' rfl).2.2.2
      · rw [Option.some.injEq, Prod.mk.injEq] at heq2
        obtain ⟨h1, h2⟩ := heq2
        subst h1
        subst h2
        rw [List.take_append_drop, padDigits_val, hdrop_len]
        rw [if_neg (by omega)]
        simp

theorem parseJNum_render (n : JNum) (rest : List Char)
    (hrest : ∀ c, rest.head? = some c → numStopCh c = true) :
    parseJNum (renderJNum n ++ rest) = some (n, rest) := by
  obtain ⟨m, e⟩ := n
  unfold renderJNum
  rcases lt_or_le m 0 with hm | hm
  · rw [if_pos hm]
    show parseJNum ('-' :: (renderJNumBody m.natAbs e ++ rest)) = _
    show parseJNumAfterSign true (renderJNumBody m.natAbs e ++ rest) = _
    rw [parseJNumAfterSign_renderBody true m.natAbs e rest hrest]
    have hmm : (if true = true then -((m.natAbs : Nat) : Int) else ((m.natAbs : Nat) : Int))
        = m := by
      rw [if_pos rfl]
      omega
    rw [hmm]
  · rw [if_neg (not_lt.mpr hm), List.nil_append]
    unfold parseJNum
    split
    · next r heq =>
      exfalso
      have hhd : (renderJNumBody m.natAbs e ++ rest).head? = some '-' := by
        rw [heq, List.head?_cons]
      rw [headOpt_append_left _ (renderJNumBody_ne_nil m.natAbs e)] at hhd
      have := renderJNumBody_head_digit m.natAbs e '-' hhd
      simp [isDigitCh] at this
    · rw [parseJNumAfterSign_renderBody false m.natAbs e rest hrest]
      have hmm : ((m.natAbs : Nat) : Int) = m := by omega
      simp [hmm]

/-! ## Round-trip development, part 3: string literals (claim C7) -/

theorem hexDigitVal_lowHex (k : Nat) (hk : k < 16) :
    hexDigitVal (if k < 10 then Char.ofNat (48 + k) else Char.ofNat (87 + k)) = some k := by
  interval_cases k <;> decide

theorem parseJStr_escape_step (c : Char) (acc tail : List Char) :
    parseJStr acc (escapeJChar c ++ tail) = parseJStr (c :: acc) tail := by
  unfold escapeJChar
  by_cases h1 : c = '"'
  · subst h1; rw [if_pos rfl]; rfl
  · rw [if_neg h1]
    by_cases h2 : c = '\\'
    · subst h2; rw [if_pos rfl]; rfl
    · rw [if_neg h2]
      by_cases h3 : c = '\x08'
      · subst h3; rw [if_pos rfl]; rfl
      · rw [if_neg h3]
        by_cases h4 : c = '\t'
        · subst h4; rw [if_pos rfl]; rfl
        · rw [if_neg h4]
          by_cases h5 : c = '\n'
          · subst h5; rw [if_pos rfl]; rfl
          · rw [if_neg h5]
            by_cases h6 : c = '\x0c'
            · subst h6; rw [if_pos rfl]; rfl
            · rw [if_neg h6]
              by_cases h7 : c = '\r'
              · subst h7; rw [if_pos rfl]; rfl
              · rw [if_neg h7]
                by_cases h8 : c.toNat < 0x20
                · rw [if_pos h8]
                  show parseJStr acc
                      ('\\' :: 'u' :: '0' :: '0' ::
                        (if c.toNat / 16 < 10 then Char.ofNat (48 + c.toNat / 16)
                         else Char.ofNat (87 + c.toNat / 16)) ::
                        (if c.toNat % 16 < 10 then Char.ofNat (48 + c.toNat % 16)
                         else Char.ofNat (87 + c.toNat % 16)) :: tail) = _
                  rw [show parseJStr acc
                      ('\\' :: 'u' :: '0' :: '0' ::
                        (if c.toNat / 16 < 10 then Char.ofNat (48 + c.toNat / 16)
                         else Char.ofNat (87 + c.toNat / 16)) ::
                        (if c.toNat % 16 < 10 then Char.ofNat (48 + c.toNat % 16)
                         else Char.ofNat (87 + c.toNat % 16)) :: tail) =
                      match hexDigitVal '0', hexDigitVal '0',
                        hexDigitVal (if c.toNat / 16 < 10 then Char.ofNat (48 + c.toNat / 16)
                          else Char.ofNat (87 + c.toNat / 16)),
                        hexDigitVal (if c.toNat % 16 < 10 then Char.ofNat (48 + c.toNat % 16)
                          else Char.ofNat (87 + c.toNat % 16)) with
                      | some va, some vb, some vc, some vd =>
                        parseJStr (Char.ofNat (((va * 16 + vb) * 16 + vc) * 16 + vd) :: acc) tail
                      | _, _, _, _ => none from rfl]
                  rw [hexDigitVal_lowHex (c.toNat / 16) (by omega),
                    hexDigitVal_lowHex (c.toNat % 16) (by omega)]
                  show parseJStr
                    (Char.ofNat (((0 * 16 + 0) * 16 + c.toNat / 16) * 16 + c.toNat % 16) :: acc)
                    tail = _
                  rw [show ((0 * 16 + 0) * 16 + c.toNat / 16) * 16 + c.toNat % 16 = c.toNat by
                    omega]
                  rw [Char.ofNat_toNat]
                · rw [if_neg h8]
                  show parseJStr acc (c :: tail) = _
                  conv_lhs => unfold parseJStr
                  split
                  · next heq =>
                    rw [List.cons.injEq] at heq
                    exact absurd heq.1 h1
                  · next heq =>
                    rw [List.cons.injEq] at heq
                    exact absurd heq.1 h2
                  · next heq =>
                    rw [List.cons.injEq] at heq
                    exact absurd heq.1 h2
                  · next heq =>
                    rw [List.cons.injEq] at heq
                    obtain ⟨hc, ht⟩ := heq
                    subst hc
                    subst ht
                    rw [if_neg h8]
                  · next heq => exact absurd heq (List.cons_ne_nil c tail)

theorem parseJStr_flatMap (s : List Char) : ∀ acc rest,
    parseJStr acc (s.flatMap escapeJChar ++ '"' :: rest) = some (acc.reverse ++ s, rest) := by
  induction s with
  | nil =>
    intro acc rest
    simp [parseJStr]
  | cons c t ih =>
    intro acc rest
    rw [List.flatMap_cons, List.append_assoc, parseJStr_escape_step, ih]
    simp

/-! ## Round-trip development, part 4: whole values (claim C7) -/

theorem skipJsonWs_not_ws (c : Char) (l : List Char) (h : isJsonWs c = false) :
    skipJsonWs (c :: l) = c :: l := by
  simp [skipJsonWs, h]

theorem isDigitCh_toNat (c : Char) (h : isDigitCh c = true) :
    48 ≤ c.toNat ∧ c.toNat ≤ 57 := by
  simp only [isDigitCh, Bool.and_eq_true, decide_eq_true_eq] at h
  exact ⟨h.1, h.2⟩

theorem isJsonWs_digit (c : Char) (h : isDigitCh c = true) : isJsonWs c = false := by
  have hb := isDigitCh_toNat c h
  have h1 : c ≠ ' ' := fun he => by subst he; revert hb; decide
  have h2 : c ≠ '\t' := fun he => by subst he; revert hb; decide
  have h3 : c ≠ '\n' := fun he => by subst he; revert hb; decide
  have h4 : c ≠ '\r' := fun he => by subst he; revert hb; decide
  simp [isJsonWs, h1, h2, h3, h4]

theorem isDigitCh_ne (c : Char) (h : isDigitCh c = true) (x : Char)
    (hx : x.toNat < 48 ∨ 57 < x.toNat) : c ≠ x := by
  have hb := isDigitCh_toNat c h
  intro he
  subst he
  omega

theorem renderJNum_head (n : JNum) :
    ∃ c l, renderJNum n = c :: l ∧ (c == '-' || isDigitCh c) = true := by
  unfold renderJNum
  by_cases h : n.m < 0
  · rw [if_pos h]
    exact ⟨'-', renderJNumBody n.m.natAbs n.e, rfl, by decide⟩
  · rw [if_neg h, List.nil_append]
    obtain ⟨c, l, hcl⟩ := List.exists_cons_of_ne_nil (renderJNumBody_ne_nil n.m.natAbs n.e)
    refine ⟨c, l, hcl, ?_⟩
    have hd := renderJNumBody_head_digit n.m.natAbs n.e c (by rw [hcl]; rfl)
    rw [hd, Bool.or_true]

theorem renderJson_head_spec (v : Json) :
    ∃ c l, renderJson v = c :: l ∧ isJsonWs c = false ∧ c ≠ ']' := by
  cases v with
  | null => exact ⟨'n', _, rfl, by decide, by decide⟩
  | bool b =>
    cases b with
    | false => exact ⟨'f', _, rfl, by decide, by decide⟩
    | true => exact ⟨'t', _, rfl, by decide, by decide⟩
  | num n =>
    obtain ⟨c, l, hcl, hc⟩ := renderJNum_head n
    refine ⟨c, l, hcl, ?_, ?_⟩
    · rcases (Bool.or_eq_true _ _).mp hc with h | h
      · rw [beq_iff_eq] at h; subst h; decide
      · exact isJsonWs_digit c h
    · rcases (Bool.or_eq_true _ _).mp hc with h | h
      · rw [beq_iff_eq] at h; subst h; decide
      · exact isDigitCh_ne c h ']' (by decide)
  | str s => exact ⟨'"', _, rfl, by decide, by decide⟩
  | arr xs => exact ⟨'[', _, rfl, by decide, by decide⟩
  | obj xs => exact ⟨'{', _, rfl, by decide, by decide⟩

theorem renderJItems_cons (w : Json) (t : JArr) :
    ∃ l, renderJItems (.cons w t) = renderJson w ++ l := by
  cases t with
  | nil => exact ⟨[], (List.append_nil _).symm⟩
  | cons w2 t2 => exact ⟨',' :: renderJItems (.cons w2 t2), rfl⟩

mutual
theorem parseJVal_render (v : Json) (f : Nat) (rest : List Char) (hf : needV v ≤ f)
    (hrest : ∀ c, rest.head? = some c → numStopCh c = true) :
    parseJVal f (renderJson v ++ rest) = some (v, rest) := by
  obtain ⟨f', rfl⟩ : ∃ f', f = f' + 1 := ⟨f - 1, by
    have h1 : 1 ≤ needV v := by cases v <;> simp only [needV] <;> omega
    omega⟩
  cases v with
  | null => rfl
  | bool b => cases b <;> rfl
  | num n =>
    obtain ⟨c, cl, hcl, hc⟩ := renderJNum_head n
    have hcn : c.toNat = 45 ∨ (48 ≤ c.toNat ∧ c.toNat ≤ 57) := by
      rcases (Bool.or_eq_true _ _).mp hc with h | h
      · left; rw [beq_iff_eq] at h; subst h; rfl
      · right; exact isDigitCh_toNat c h
    have hws : isJsonWs c = false := by
      rcases (Bool.or_eq_true _ _).mp hc with h | h
      · rw [beq_iff_eq] at h; subst h; decide
      · exact isJsonWs_digit c h
    have hform : renderJson (.num n) ++ rest = c :: (cl ++ rest) := by
      simp only [renderJson]
      rw [hcl]
      rfl
    rw [hform]
    simp only [parseJVal]
    rw [skipJsonWs_not_ws c _ hws]
    split
    · next heq =>
      rw [List.cons.injEq] at heq
      have h := congrArg Char.toNat heq.1
      rw [show ('n' : Char).toNat = 110 from rfl] at h
      exact absurd h (by omega)
    · next heq =>
      rw [List.cons.injEq] at heq
      have h := congrArg Char.toNat heq.1
      rw [show ('t' : Char).toNat = 116 from rfl] at h
      exact absurd h (by omega)
    · next heq =>
      rw [List.cons.injEq] at heq
      have h := congrArg Char.toNat heq.1
      rw [show ('f' : Char).toNat = 102 from rfl] at h
      exact absurd h (by omega)
    · next heq =>
      rw [List.cons.injEq] at heq
      have h := congrArg Char.toNat heq.1
      rw [show ('"' : Char).toNat = 34 from rfl] at h
      exact absurd h (by omega)
    · next heq =>
      rw [List.cons.injEq] at heq
      have h := congrArg Char.toNat heq.1
      rw [show ('[' : Char).toNat = 91 from rfl] at h
      exact absurd h (by omega)
    · next heq =>
      rw [List.cons.injEq] at heq
      have h := congrArg Char.toNat heq.1
      rw [show ('{' : Char).toNat = 123 from rfl] at h
      exact absurd h (by omega)
    · next heq =>
      rw [List.cons.injEq] at heq
      obtain ⟨h1, h2⟩ := heq
      subst h1
      subst h2
      rw [if_pos hc]
      rw [show c :: (cl ++ rest) = renderJNum n ++ rest from by rw [hcl]; rfl]
      rw [parseJNum_render n rest hrest]
      rfl
    · next heq => exact absurd heq (List.cons_ne_nil _ _)
  | str s =>
    have hform : renderJson (.str s) ++ rest =
        '"' :: (s.flatMap escapeJChar ++ '"' :: rest) := by
      simp [renderJson, renderJStr, List.append_assoc]
    rw [hform]
    simp only [parseJVal]
    rw [skipJsonWs_not_ws '"' _ (by decide)]
    simp only []
    rw [parseJStr_flatMap s [] rest]
    simp
  | arr xs =>
    cases xs with
    | nil => rfl
    | cons w t =>
      obtain ⟨ltl, hltl⟩ := renderJItems_cons w t
      obtain ⟨c, cl, hcl, hws, hne⟩ := renderJson_head_spec w
      have hhead : renderJItems (.cons w t) ++ ']' :: rest =
          c :: (cl ++ (ltl ++ ']' :: rest)) := by
        rw [hltl, hcl]
        simp [List.append_assoc]
      have hform : renderJson (.arr (.cons w t)) ++ rest =
          '[' :: (renderJItems (.cons w t) ++ ']' :: rest) := by
        simp [renderJson, List.append_assoc]
      rw [hform]
      simp only [parseJVal]
      rw [skipJsonWs_not_ws '[' _ (by decide)]
      simp only []
      rw [hhead, skipJsonWs_not_ws c _ hws]
      split
      · next heq =>
        rw [List.cons.injEq] at heq
        exact absurd heq.1 hne
      · rw [← hhead]
        rw [parseJItems_render w t f' rest (by simp only [needV, needA] at hf ⊢; omega) hrest]
        rfl
  | obj xs =>
    cases xs with
    | nil => rfl
    | cons k w t =>
      have hmem : ∃ l, renderJMembers (.cons k w t) ++ '}' :: rest = '"' :: l := by
        cases t with
        | nil =>
          exact ⟨k.flatMap escapeJChar ++ '"' :: (':' :: (renderJson w ++ '}' :: rest)),
            by simp [renderJMembers, renderJStr, List.append_assoc]⟩
        | cons k2 w2 t2 =>
          exact ⟨k.flatMap escapeJChar ++ '"' :: (':' :: (renderJson w ++
              ',' :: (renderJMembers (.cons k2 w2 t2) ++ '}' :: rest))),
            by simp [renderJMembers, renderJStr, List.append_assoc]⟩
      obtain ⟨l, hl⟩ := hmem
      have hform : renderJson (.obj (.cons k w t)) ++ rest =
          '{' :: (renderJMembers (.cons k w t) ++ '}' :: rest) := by
        simp [renderJson, List.append_assoc]
      rw [hform]
      simp only [parseJVal]
      rw [skipJsonWs_not_ws '{' _ (by decide)]
      simp only []
      rw [hl, skipJsonWs_not_ws '"' _ (by decide)]
      split
      · next heq =>
        rw [List.cons.injEq] at heq
        exact absurd heq.1 (by decide)
      · rw [← hl]
        rw [parseJMembers_render k w t f' rest (by simp only [needV, needO] at hf ⊢; omega) hrest]
        rfl
termination_by sizeOf v
theorem parseJItems_render (v : Json) (t : JArr) (f : Nat) (rest : List Char)
    (hf : needA (.cons v t) ≤ f)
    (hrest : ∀ c, rest.head? = some c → numStopCh c = true) :
    parseJItems f (renderJItems (.cons v t) ++ ']' :: rest) = some (.cons v t, rest) := by
  obtain ⟨f', rfl⟩ : ∃ f', f = f' + 1 := ⟨f - 1, by simp only [needA] at hf; omega⟩
  simp only [parseJItems]
  cases t with
  | nil =>
    rw [show renderJItems (.cons v .nil) = renderJson v from rfl]
    rw [parseJVal_render v f' (']' :: rest) (by simp only [needA] at hf; omega)
      (by intro c hc; rw [List.head?_cons, Option.some.injEq] at hc; subst hc; decide)]
    rfl
  | cons w t2 =>
    rw [show renderJItems (.cons v (.cons w t2)) ++ ']' :: rest =
        renderJson v ++ (',' :: (renderJItems (.cons w t2) ++ ']' :: rest)) from by
      simp [renderJItems, List.append_assoc]]
    rw [parseJVal_render v f' _ (by simp only [needA] at hf; omega)
      (by intro c hc; rw [List.head?_cons, Option.some.injEq] at hc; subst hc; decide)]
    simp only []
    rw [skipJsonWs_not_ws ',' _ (by decide)]
    simp only []
    rw [parseJItems_render w t2 f' rest (by simp only [needA] at hf ⊢; omega) hrest]
    rfl
termination_by 1 + sizeOf v + sizeOf t
theorem parseJMembers_render (k : List Char) (w : Json) (t : JObj) (f : Nat) (rest : List Char)
    (hf : needO (.cons k w t) ≤ f)
    (hrest : ∀ c, rest.head? = some c → numStopCh c = true) :
    parseJMembers f (renderJMembers (.cons k w t) ++ '}' :: rest) = some (.cons k w t, rest) := by
  obtain ⟨f', rfl⟩ : ∃ f', f = f' + 1 := ⟨f - 1, by simp only [needO] at hf; omega⟩
  simp only [parseJMembers]
  cases t with
  | nil =>
    rw [show renderJMembers (.cons k w .nil) ++ '}' :: rest =
        '"' :: (k.flatMap escapeJChar ++ '"' :: (':' :: (renderJson w ++ '}' :: rest))) from by
      simp [renderJMembers, renderJStr, List.append_assoc]]
    rw [skipJsonWs_not_ws '"' _ (by decide)]
    simp only []
    rw [parseJStr_flatMap k [] _]
    simp only [List.reverse_nil, List.nil_append]
    rw [skipJsonWs_not_ws ':' _ (by decide)]
    simp only []
    rw [parseJVal_render w f' _ (by simp only [needO] at hf; omega)
      (by intro c hc; rw [List.head?_cons, Option.some.injEq] at hc; subst hc; decide)]
    rfl
  | cons k2 w2 t2 =>
    rw [show renderJMembers (.cons k w (.cons k2 w2 t2)) ++ '}' :: rest =
        '"' :: (k.flatMap escapeJChar ++ '"' :: (':' :: (renderJson w ++
          ',' :: (renderJMembers (.cons k2 w2 t2) ++ '}' :: rest)))) from by
      simp [renderJMembers, renderJStr, List.append_assoc]]
    rw [skipJsonWs_not_ws '"' _ (by decide)]
    simp only []
    rw [parseJStr_flatMap k [] _]
    simp only [List.reverse_nil, List.nil_append]
    rw [skipJsonWs_not_ws ':' _ (by decide)]
    simp only []
    rw [parseJVal_render w f' _ (by simp only [needO] at hf; omega)
      (by intro c hc; rw [List.head?_cons, Option.some.injEq] at hc; subst hc; decide)]
    simp only []
    rw [skipJsonWs_not_ws ',' _ (by decide)]
    simp only []
    rw [parseJMembers_render k2 w2 t2 f' rest (by simp only [needO] at hf ⊢; omega) hrest]
    rfl
termination_by 1 + sizeOf w + sizeOf t
end

mutual
theorem needV_le (v : Json) : needV v ≤ 2 * (renderJson v).length := by
  cases v with
  | null => simp [needV, renderJson]
  | bool b => cases b <;> simp [needV, renderJson]
  | num n =>
    have hb : 0 < (renderJNumBody n.m.natAbs n.e).length :=
      List.length_pos.mpr (renderJNumBody_ne_nil n.m.natAbs n.e)
    simp only [needV, renderJson, renderJNum, List.length_append]
    split <;> simp only [List.length_cons, List.length_nil] <;> omega
  | str s =>
    simp only [needV, renderJson, renderJStr, List.length_cons]
    omega
  | arr xs =>
    have h := needA_le xs
    simp only [needV, renderJson, List.length_cons, List.length_append,
      List.length_nil] at h ⊢
    omega
  | obj xs =>
    have h := needO_le xs
    simp only [needV, renderJson, List.length_cons, List.length_append,
      List.length_nil] at h ⊢
    omega

theorem needA_le (xs : JArr) : needA xs ≤ 2 * (renderJItems xs).length + 2 := by
  cases xs with
  | nil => simp [needA, renderJItems]
  | cons v t =>
    have hv := needV_le v
    cases t with
    | nil =>
      simp only [needA, renderJItems]
      omega
    | cons w t2 =>
      have ht := needA_le (.cons w t2)
      simp only [needA, renderJItems, List.length_append, List.length_cons] at ht ⊢
      omega

theorem needO_le (xs : JObj) : needO xs ≤ 2 * (renderJMembers xs).length + 2 := by
  cases xs with
  | nil => simp [needO, renderJMembers]
  | cons k v t =>
    have hv := needV_le v
    cases t with
    | nil =>
      simp only [needO, renderJMembers, List.length_append, List.length_cons]
      omega
    | cons k2 w t2 =>
      have ht := needO_le (.cons k2 w t2)
      simp only [needO, renderJMembers, List.length_append, List.length_cons] at ht ⊢
      omega
end

/-- `JSON.parse ∘ JSON.stringify` is the identity on embedded JSON values. -/
theorem jsonParse_render (v : Json) : jsonParse (renderJson v) = some v := by
  unfold jsonParse
  have h := parseJVal_render v (2 * (renderJson v).length + 2) []
    (by have := needV_le v; omega)
    (by intro c hc; simp at hc)
  rw [List.append_nil] at h
  rw [h]
  rfl

/-! ## Round-trip development, part 5: extraction of a rendered object (claim C7) -/

theorem dropJsSpace_not_space (c : Char) (l : List Char) (h : isJsSpace c = false) :
    dropJsSpace (c :: l) = c :: l := by
  simp [dropJsSpace, h]

theorem trimEnd_eq_self : ∀ (l : List Char),
    (∀ c, l.getLast? = some c → isJsSpace c = false) → trimEnd l = l := by
  intro l
  induction l with
  | nil => intro h; rfl
  | cons c cs ih =>
    intro h
    cases cs with
    | nil =>
      have hc := h c (by simp)
      simp [trimEnd, hc]
    | cons d ds =>
      have hlast : ∀ x, (d :: ds).getLast? = some x → isJsSpace x = false := by
        intro x hx
        exact h x (by rw [List.getLast?_cons_cons]; exact hx)
      have ht := ih hlast
      show (if ((trimEnd (d :: ds)).isEmpty && isJsSpace c) = true then []
        else c :: trimEnd (d :: ds)) = c :: d :: ds
      rw [ht]
      simp

theorem renderJson_obj_trim (xs : JObj) :
    jsTrim (renderJson (.obj xs)) = renderJson (.obj xs) := by
  have hform : renderJson (.obj xs) = ('\x7b' :: renderJMembers xs) ++ ['\x7d'] := by
    simp [renderJson]
  unfold jsTrim
  have hd : dropJsSpace (renderJson (.obj xs)) = renderJson (.obj xs) := by
    conv_lhs => rw [show renderJson (.obj xs) =
      '\x7b' :: (renderJMembers xs ++ ['\x7d']) from by simp [renderJson]]
    rw [dropJsSpace_not_space _ _ (by decide)]
    simp [renderJson]
  rw [hd]
  apply trimEnd_eq_self
  intro c hc
  rw [hform, List.getLast?_concat, Option.some.injEq] at hc
  subst hc
  decide

theorem extractJsonObject_render (xs : JObj) :
    extractJsonObject (renderJson (.obj xs)) = some (.obj xs) := by
  have hp : safeJsonParse (renderJson (Json.obj xs)) = some (Json.obj xs) :=
    jsonParse_render (Json.obj xs)
  unfold extractJsonObject
  rw [if_neg (by
    rw [show renderJson (.obj xs) =
      '\x7b' :: (renderJMembers xs ++ ['\x7d']) from by simp [renderJson]]
    simp)]
  simp only [renderJson_obj_trim, hp]
  rfl

theorem toList_ofList (l : List Json) : (JArr.ofList l).toList = l := by
  induction l with
  | nil => rfl
  | cons v t ih => simp [JArr.ofList, JArr.toList, ih]

/-! ## Round-trip development, part 6: the sanitizer normal form (claim C7) -/

theorem printable_not_space (c : Char) (h1 : 0x20 ≤ c.toNat) (h2 : c.toNat ≤ 0x7e)
    (h3 : c ≠ ' ') : isJsSpace c = false := by
  have e1 : c ≠ '\t' := fun he => by subst he; revert h1; decide
  have e2 : c ≠ '\n' := fun he => by subst he; revert h1; decide
  have e3 : c ≠ '\r' := fun he => by subst he; revert h1; decide
  have e4 : c ≠ '\x0b' := fun he => by subst he; revert h1; decide
  have e5 : c ≠ '\x0c' := fun he => by subst he; revert h1; decide
  have n1 : c.toNat ≠ 0xa0 := by omega
  have n2 : c.toNat ≠ 0x1680 := by omega
  have n3 : ¬(0x2000 ≤ c.toNat) := by omega
  have n4 : c.toNat ≠ 0x2028 := by omega
  have n5 : c.toNat ≠ 0x2029 := by omega
  have n6 : c.toNat ≠ 0x202f := by omega
  have n7 : c.toNat ≠ 0x205f := by omega
  have n8 : c.toNat ≠ 0x3000 := by omega
  have n9 : c.toNat ≠ 0xfeff := by omega
  simp [isJsSpace, h3, e1, e2, e3, e4, e5, n1, n2, n3, n4, n5, n6, n7, n8, n9]

theorem notSpace_ne_blank (c : Char) (h : isJsSpace c = false) : c ≠ ' ' := by
  intro he
  subst he
  exact absurd h (by decide)

theorem nds_tail (c : Char) (cs : List Char) (h : noDoubleSpace (c :: cs)) :
    noDoubleSpace cs := by
  cases cs with
  | nil => trivial
  | cons d ds => exact h.2

theorem nds_append_right : ∀ (t s : List Char), noDoubleSpace (t ++ s) → noDoubleSpace s := by
  intro t
  induction t with
  | nil => intro s h; exact h
  | cons c cs ih => intro s h; exact ih s (nds_tail _ _ h)

theorem dropJsSpace_suffix (l : List Char) : ∃ t, t ++ dropJsSpace l = l := by
  induction l with
  | nil => exact ⟨[], rfl⟩
  | cons c cs ih =>
    by_cases h : isJsSpace c = true
    · obtain ⟨t, ht⟩ := ih
      exact ⟨c :: t, by simp [dropJsSpace, h, ht]⟩
    · exact ⟨[], by simp [dropJsSpace, h]⟩

theorem spanDigits_parts (l : List Char) : (spanDigits l).1 ++ (spanDigits l).2 = l := by
  induction l with
  | nil => rfl
  | cons c cs ih =>
    simp only [spanDigits]
    split
    · simp [ih]
    · rfl

theorem trimEnd_subset : ∀ (l : List Char) (c : Char), c ∈ trimEnd l → c ∈ l := by
  intro l
  induction l with
  | nil => intro c h; exact absurd h (List.not_mem_nil c)
  | cons d ds ih =>
    intro c h
    by_cases hc : ((trimEnd ds).isEmpty && isJsSpace d) = true
    · rw [show trimEnd (d :: ds) = [] from by simp [trimEnd, hc]] at h
      exact absurd h (List.not_mem_nil c)
    · rw [show trimEnd (d :: ds) = d :: trimEnd ds from by simp [trimEnd, hc]] at h
      rcases List.mem_cons.mp h with rfl | h2
      · exact List.mem_cons_self _ _
      · exact List.mem_cons_of_mem _ (ih c h2)

theorem trimEnd_head (l : List Char) (c : Char) (h : (trimEnd l).head? = some c) :
    l.head? = some c := by
  cases l with
  | nil => simp [trimEnd] at h
  | cons d ds =>
    by_cases hc : ((trimEnd ds).isEmpty && isJsSpace d) = true
    · rw [show trimEnd (d :: ds) = [] from by simp [trimEnd, hc]] at h
      simp at h
    · rw [show trimEnd (d :: ds) = d :: trimEnd ds from by simp [trimEnd, hc]] at h
      rw [List.head?_cons] at h
      rw [List.head?_cons]
      exact h

theorem trimEnd_getLast : ∀ (l : List Char),
    ∀ c, (trimEnd l).getLast? = some c → isJsSpace c = false := by
  intro l
  induction l with
  | nil => intro c h; simp [trimEnd] at h
  | cons d ds ih =>
    intro c h
    by_cases hc : ((trimEnd ds).isEmpty && isJsSpace d) = true
    · rw [show trimEnd (d :: ds) = [] from by simp [trimEnd, hc]] at h
      simp at h
    · rw [show trimEnd (d :: ds) = d :: trimEnd ds from by simp [trimEnd, hc]] at h
      cases hte : trimEnd ds with
      | nil =>
        rw [hte, List.getLast?_singleton, Option.some.injEq] at h
        subst h
        rw [hte] at hc
        simp only [List.isEmpty_nil, Bool.true_and] at hc
        exact Bool.eq_false_iff.mpr hc
      | cons x xs =>
        rw [hte, List.getLast?_cons_cons] at h
        exact ih c (by rw [hte]; exact h)

theorem dropJsSpace_head : ∀ (l : List Char),
    ∀ c, (dropJsSpace l).head? = some c → isJsSpace c = false := by
  intro l
  induction l with
  | nil => intro c h; simp [dropJsSpace] at h
  | cons d ds ih =>
    intro c h
    by_cases hd : isJsSpace d = true
    · rw [show dropJsSpace (d :: ds) = dropJsSpace ds from by simp [dropJsSpace, hd]] at h
      exact ih c h
    · rw [show dropJsSpace (d :: ds) = d :: ds from by simp [dropJsSpace, hd]] at h
      rw [List.head?_cons, Option.some.injEq] at h
      subst h
      exact Bool.eq_false_iff.mpr hd

theorem collapseWs_chars : ∀ (l : List Char) (b : Bool) (c : Char), c ∈ collapseWs b l →
    c = ' ' ∨ (c ∈ l ∧ isJsSpace c = false) := by
  intro l
  induction l with
  | nil => intro b c h; simp [collapseWs] at h
  | cons d ds ih =>
    intro b c h
    simp only [collapseWs] at h
    split at h
    · split at h
      · rcases ih true c h with h1 | h2
        · exact Or.inl h1
        · exact Or.inr ⟨List.mem_cons_of_mem _ h2.1, h2.2⟩
      · rcases List.mem_cons.mp h with rfl | h2
        · exact Or.inl rfl
        · rcases ih true c h2 with h1 | h3
          · exact Or.inl h1
          · exact Or.inr ⟨List.mem_cons_of_mem _ h3.1, h3.2⟩
    · next hd =>
      rcases List.mem_cons.mp h with rfl | h2
      · exact Or.inr ⟨List.mem_cons_self _ _, Bool.eq_false_iff.mpr hd⟩
      · rcases ih false c h2 with h1 | h3
        · exact Or.inl h1
        · exact Or.inr ⟨List.mem_cons_of_mem _ h3.1, h3.2⟩

theorem collapseWs_true_head : ∀ (l : List Char),
    ∀ c, (collapseWs true l).head? = some c → c ≠ ' ' := by
  intro l
  induction l with
  | nil => intro c h; simp [collapseWs] at h
  | cons d ds ih =>
    intro c h
    by_cases hd : isJsSpace d = true
    · rw [show collapseWs true (d :: ds) = collapseWs true ds from by
        simp [collapseWs, hd]] at h
      exact ih c h
    · rw [show collapseWs true (d :: ds) = d :: collapseWs false ds from by
        simp [collapseWs, hd]] at h
      rw [List.head?_cons, Option.some.injEq] at h
      subst h
      exact notSpace_ne_blank _ (Bool.eq_false_iff.mpr hd)

theorem collapseWs_nds : ∀ (l : List Char) (b : Bool), noDoubleSpace (collapseWs b l) := by
  intro l
  induction l with
  | nil => intro b; trivial
  | cons d ds ih =>
    intro b
    by_cases hd : isJsSpace d = true
    · by_cases hb : b = true
      · rw [show collapseWs b (d :: ds) = collapseWs true ds from by
          simp [collapseWs, hd, hb]]
        exact ih true
      · rw [show collapseWs b (d :: ds) = ' ' :: collapseWs true ds from by
          simp [collapseWs, hd, hb]]
        cases hcw : collapseWs true ds with
        | nil => trivial
        | cons x xs =>
          refine ⟨?_, ?_⟩
          · intro hxx
            exact collapseWs_true_head ds x (by rw [hcw]; rfl) hxx.2
          · rw [← hcw]
            exact ih true
    · rw [show collapseWs b (d :: ds) = d :: collapseWs false ds from by
        simp [collapseWs, hd]]
      cases hcw : collapseWs false ds with
      | nil => trivial
      | cons x xs =>
        refine ⟨?_, ?_⟩
        · intro hxx
          exact notSpace_ne_blank d (Bool.eq_false_iff.mpr hd) hxx.1
        · rw [← hcw]
          exact ih false

theorem nds_trimEnd : ∀ (l : List Char), noDoubleSpace l → noDoubleSpace (trimEnd l) := by
  intro l
  induction l with
  | nil => intro h; trivial
  | cons d ds ih =>
    intro h
    by_cases hc : ((trimEnd ds).isEmpty && isJsSpace d) = true
    · rw [show trimEnd (d :: ds) = [] from by simp [trimEnd, hc]]
      trivial
    · rw [show trimEnd (d :: ds) = d :: trimEnd ds from by simp [trimEnd, hc]]
      cases hte : trimEnd ds with
      | nil => trivial
      | cons x xs =>
        refine ⟨?_, ?_⟩
        · intro hxx
          have hhead := trimEnd_head ds x (by rw [hte]; rfl)
          cases ds with
          | nil => simp at hhead
          | cons y ys =>
            rw [List.head?_cons, Option.some.injEq] at hhead
            exact h.1 ⟨hxx.1, by rw [hhead]; exact hxx.2⟩
        · rw [← hte]
          exact ih (nds_tail _ _ h)

theorem mapNonPrintable_chars (l : List Char) (c : Char) (h : c ∈ mapNonPrintable l) :
    c = ' ' ∨ (c ∈ l ∧ ((0x20 ≤ c.toNat ∧ c.toNat ≤ 0x7e) ∨ c = '\n')) := by
  unfold mapNonPrintable at h
  obtain ⟨d, hd, hc⟩ := List.mem_map.mp h
  by_cases hcond : ((0x20 ≤ d.toNat && d.toNat ≤ 0x7e) || d = '\n') = true
  · rw [if_pos hcond] at hc
    subst hc
    right
    refine ⟨hd, ?_⟩
    simp only [Bool.or_eq_true, Bool.and_eq_true, decide_eq_true_eq] at hcond
    exact hcond
  · rw [if_neg hcond] at hc
    exact Or.inl hc.symm

theorem stripBackticks_chars (l : List Char) (c : Char) (h : c ∈ stripBackticks l) :
    c ∈ l ∧ c ≠ '`' := by
  unfold stripBackticks at h
  have h2 := List.mem_filter.mp h
  refine ⟨h2.1, ?_⟩
  simpa using h2.2

/-- The sanitizer normal form is preserved by trimming any list drawn from the
printable no-double-space class. -/
theorem cleanNF_jsTrim (l : List Char)
    (hcls : ∀ c ∈ l, (0x20 ≤ c.toNat ∧ c.toNat ≤ 0x7e) ∧ c ≠ '`')
    (hnds : noDoubleSpace l) : CleanNF (jsTrim l) := by
  have hsub : ∀ c ∈ jsTrim l, c ∈ l := by
    intro c hc
    have h1 := trimEnd_subset _ c hc
    obtain ⟨t, ht⟩ := dropJsSpace_suffix l
    rw [← ht]
    exact List.mem_append_right t h1
  refine ⟨?_, ?_, ?_, ?_⟩
  · intro c hc
    obtain ⟨hb, ht⟩ := hcls c (hsub c hc)
    exact ⟨hb.1, hb.2, ht⟩
  · apply nds_trimEnd
    obtain ⟨t, ht⟩ := dropJsSpace_suffix l
    rw [← ht] at hnds
    exact nds_append_right t _ hnds
  · intro c hc
    exact notSpace_ne_blank c (dropJsSpace_head l c (trimEnd_head _ c hc))
  · intro c hc
    exact notSpace_ne_blank c (trimEnd_getLast _ c hc)

/-- `cleanText` always lands in the sanitizer normal form. -/
theorem cleanText_cleanNF (s : List Char) : CleanNF (cleanText s) := by
  by_cases hs : s.isEmpty = true
  · rw [show cleanText s = [] from by simp [cleanText, hs]]
    exact ⟨by intro c hc; exact absurd hc (List.not_mem_nil c), trivial,
      by intro c hc; simp at hc, by intro c hc; simp at hc⟩
  · rw [show cleanText s = cleanCore s from by simp [cleanText, hs]]
    unfold cleanCore
    apply cleanNF_jsTrim
    · intro c hc
      rcases collapseWs_chars _ false c hc with rfl | ⟨hmem, hnsp⟩
      · exact ⟨⟨by decide, by decide⟩, by decide⟩
      · rcases mapNonPrintable_chars _ c hmem with rfl | ⟨hmem2, hpr⟩
        · exact absurd hnsp (by decide)
        · rcases hpr with hpr | rfl
          · exact ⟨hpr, (stripBackticks_chars _ c hmem2).2⟩
          · exact absurd hnsp (by decide)
    · exact collapseWs_nds _ false

/-! ## Round-trip development, part 7: `cleanText` is the identity on its
normal form (claim C7) -/

theorem lowerCh_ne_backtick (c : Char) (h : c ≠ '`') : lowerCh c ≠ '`' := by
  unfold lowerCh
  split
  · next hAZ =>
    simp only [Bool.and_eq_true, decide_eq_true_eq] at hAZ
    have hb1 : 65 ≤ c.toNat := hAZ.1
    have hb2 : c.toNat ≤ 90 := hAZ.2
    intro hcon
    have hx := congrArg Char.toNat hcon
    generalize hk : c.toNat = k at hb1 hb2 hx
    interval_cases k <;> revert hx <;> decide
  · exact h

theorem startsLower_fence_false (c : Char) (cs : List Char) (hc : c ≠ '`') :
    startsLowerEq ("```json".toList) (c :: cs) = false := by
  show (lowerCh c == '`' && startsLowerEq ("``json".toList) cs) = false
  rw [beq_eq_false_iff_ne.mpr (lowerCh_ne_backtick c hc), Bool.false_and]

theorem stripFenceJsonF_id : ∀ (f : Nat) (l : List Char), (∀ c ∈ l, c ≠ '`') →
    stripFenceJsonF f l = l := by
  intro f
  induction f with
  | zero => intro l h; rfl
  | succ f ih =>
    intro l h
    cases l with
    | nil => rfl
    | cons c cs =>
      have hc := h c (List.mem_cons_self _ _)
      show (if startsLowerEq ("```json".toList) (c :: cs) = true
        then stripFenceJsonF f (cs.drop 6) else c :: stripFenceJsonF f cs) = c :: cs
      rw [if_neg (by rw [startsLower_fence_false c cs hc]; exact Bool.false_ne_true),
        ih cs (fun x hx => h x (List.mem_cons_of_mem _ hx))]

theorem stripFence_id : ∀ (l : List Char), (∀ c ∈ l, c ≠ '`') → stripFence l = l := by
  intro l
  induction l with
  | nil => intro h; rfl
  | cons c cs ih =>
    intro h
    conv_lhs => unfold stripFence
    split
    · next heq =>
      rw [List.cons.injEq] at heq
      exact absurd heq.1 (h c (List.mem_cons_self _ _))
    · next heq =>
      rw [List.cons.injEq] at heq
      obtain ⟨h1, h2⟩ := heq
      subst h1
      subst h2
      rw [ih (fun x hx => h x (List.mem_cons_of_mem _ hx))]
    · next heq => exact absurd heq (List.cons_ne_nil _ _)

theorem stripBackticks_id (l : List Char) (h : ∀ c ∈ l, c ≠ '`') :
    stripBackticks l = l := by
  unfold stripBackticks
  apply List.filter_eq_self.mpr
  intro c hc
  simpa using h c hc

theorem mapNonPrintable_id (l : List Char)
    (h : ∀ c ∈ l, 0x20 ≤ c.toNat ∧ c.toNat ≤ 0x7e) : mapNonPrintable l = l := by
  unfold mapNonPrintable
  have hcg : ∀ c ∈ l,
      (if (0x20 ≤ c.toNat && c.toNat ≤ 0x7e) || c = '\n' then c else ' ') = id c := by
    intro c hc
    rw [if_pos (by
      simp only [Bool.or_eq_true, Bool.and_eq_true, decide_eq_true_eq]
      exact Or.inl (h c hc))]
    rfl
  rw [List.map_congr_left hcg, List.map_id]

theorem collapseWs_id : ∀ (l : List Char),
    (∀ c ∈ l, 0x20 ≤ c.toNat ∧ c.toNat ≤ 0x7e) → noDoubleSpace l →
    (collapseWs false l = l ∧
      ((∀ c, l.head? = some c → c ≠ ' ') → collapseWs true l = l)) := by
  intro l
  induction l with
  | nil => intro hcls hnds; exact ⟨rfl, fun _ => rfl⟩
  | cons d ds ih =>
    intro hcls hnds
    have hdb := hcls d (List.mem_cons_self _ _)
    have ihds := ih (fun x hx => hcls x (List.mem_cons_of_mem _ hx)) (nds_tail _ _ hnds)
    by_cases hd : d = ' '
    · subst hd
      have hsp : isJsSpace ' ' = true := by decide
      have hdsh : ∀ c, ds.head? = some c → c ≠ ' ' := by
        intro c hc
        cases ds with
        | nil => simp at hc
        | cons y ys =>
          rw [List.head?_cons, Option.some.injEq] at hc
          subst hc
          intro hcon
          exact hnds.1 ⟨rfl, hcon⟩
      constructor
      · rw [show collapseWs false (' ' :: ds) = ' ' :: collapseWs true ds from by
          simp [collapseWs, hsp]]
        rw [ihds.2 hdsh]
      · intro hh
        exact absurd rfl (hh ' ' rfl)
    · have hnsp : isJsSpace d = false := printable_not_space d hdb.1 hdb.2 hd
      constructor
      · rw [show collapseWs false (d :: ds) = d :: collapseWs false ds from by
          simp [collapseWs, hnsp]]
        rw [ihds.1]
      · intro _
        rw [show collapseWs true (d :: ds) = d :: collapseWs false ds from by
          simp [collapseWs, hnsp]]
        rw [ihds.1]

/-- `cleanText` is the identity on its normal form. -/
theorem cleanText_of_cleanNF (l : List Char) (h : CleanNF l) : cleanText l = l := by
  obtain ⟨hcls, hnds, hhead, hlast⟩ := h
  by_cases hl : l = []
  · subst hl; rfl
  · have hticks : ∀ c ∈ l, c ≠ '`' := fun c hc => (hcls c hc).2.2
    have hbounds : ∀ c ∈ l, 0x20 ≤ c.toNat ∧ c.toNat ≤ 0x7e :=
      fun c hc => ⟨(hcls c hc).1, (hcls c hc).2.1⟩
    unfold cleanText
    rw [if_neg (by simpa [List.isEmpty_iff] using hl)]
    unfold cleanCore
    rw [show stripFenceJson l = l from stripFenceJsonF_id l.length l hticks,
      stripFence_id l hticks, stripBackticks_id l hticks, mapNonPrintable_id l hbounds,
      (collapseWs_id l hbounds hnds).1]
    unfold jsTrim
    rw [show dropJsSpace l = l from ?hdrop]
    case hdrop =>
      cases l with
      | nil => rfl
      | cons c cs =>
        exact dropJsSpace_not_space c cs
          (printable_not_space c (hbounds c (List.mem_cons_self _ _)).1
            (hbounds c (List.mem_cons_self _ _)).2 (hhead c rfl))
    apply trimEnd_eq_self
    intro c hc
    exact printable_not_space c (hbounds c (mem_of_getLastOpt hc)).1
      (hbounds c (mem_of_getLastOpt hc)).2 (hlast c hc)

/-- Sanitizing is idempotent. -/
theorem cleanText_idem (s : List Char) : cleanText (cleanText s) = cleanText s :=
  cleanText_of_cleanNF _ (cleanText_cleanNF s)

/-! ## Round-trip development, part 8: characters that survive sanitization
(claim C7) -/

theorem startsLowerEq_mem : ∀ (p l : List Char), startsLowerEq p l = true →
    ∀ c ∈ l.take p.length, lowerCh c ∈ p := by
  intro p
  induction p with
  | nil => intro l h c hc; simp at hc
  | cons x ps ih =>
    intro l h c hc
    cases l with
    | nil => simp [startsLowerEq] at h
    | cons d ds =>
      rw [show startsLowerEq (x :: ps) (d :: ds) = (lowerCh d == x && startsLowerEq ps ds)
        from rfl, Bool.and_eq_true] at h
      obtain ⟨h1, h2⟩ := h
      rw [List.length_cons, List.take_succ_cons] at hc
      rcases List.mem_cons.mp hc with rfl | hc2
      · rw [beq_iff_eq] at h1
        rw [h1]
        exact List.mem_cons_self _ _
      · exact List.mem_cons_of_mem _ (ih ds h2 c hc2)

theorem stripFenceJsonF_survive : ∀ (f : Nat) (l : List Char) (c : Char),
    lowerCh c ∉ ("```json".toList) → c ∈ l → c ∈ stripFenceJsonF f l := by
  intro f
  induction f with
  | zero => intro l c h hm; exact hm
  | succ f ih =>
    intro l c h hm
    cases l with
    | nil => exact absurd hm (List.not_mem_nil c)
    | cons d ds =>
      show c ∈ (if startsLowerEq ("```json".toList) (d :: ds) = true
        then stripFenceJsonF f (ds.drop 6) else d :: stripFenceJsonF f ds)
      by_cases hs : startsLowerEq ("```json".toList) (d :: ds) = true
      · rw [if_pos hs]
        have h7 := startsLowerEq_mem _ _ hs
        apply ih
        · exact h
        · rcases List.mem_cons.mp hm with rfl | hm2
          · exact absurd (h7 c (by
              rw [show ("```json".toList).length = 6 + 1 from rfl, List.take_succ_cons]
              exact List.mem_cons_self _ _)) h
          · have hsplit : c ∈ ds.take 6 ++ ds.drop 6 := by
              rw [List.take_append_drop]
              exact hm2
            rcases List.mem_append.mp hsplit with h6 | h6
            · exact absurd (h7 c (by
                rw [show ("```json".toList).length = 6 + 1 from rfl, List.take_succ_cons]
                exact List.mem_cons_of_mem _ h6)) h
            · exact h6
      · rw [if_neg hs]
        rcases List.mem_cons.mp hm with rfl | hm2
        · exact List.mem_cons_self _ _
        · exact List.mem_cons_of_mem _ (ih ds c h hm2)

theorem stripFence_survive : ∀ (n : Nat) (l : List Char), l.length ≤ n → ∀ c, c ≠ '`' →
    c ∈ l → c ∈ stripFence l := by
  intro n
  induction n with
  | zero =>
    intro l hl c h hm
    cases l with
    | nil => exact absurd hm (List.not_mem_nil c)
    | cons d ds => simp at hl
  | succ n ih =>
    intro l hl c h hm
    unfold stripFence
    split
    · next r =>
      have hm2 : c ∈ r := by
        rcases List.mem_cons.mp hm with rfl | hm2
        · exact absurd rfl h
        · rcases List.mem_cons.mp hm2 with rfl | hm3
          · exact absurd rfl h
          · rcases List.mem_cons.mp hm3 with rfl | hm4
            · exact absurd rfl h
            · exact hm4
      exact ih r (by simp at hl ⊢; omega) c h hm2
    · rcases List.mem_cons.mp hm with rfl | hm2
      · exact List.mem_cons_self _ _
      · exact List.mem_cons_of_mem _ (ih _ (by simp at hl ⊢; omega) c h hm2)
    · exact hm

theorem stripBackticks_survive (l : List Char) (c : Char) (h : c ≠ '`') (hm : c ∈ l) :
    c ∈ stripBackticks l := by
  unfold stripBackticks
  exact List.mem_filter.mpr ⟨hm, by simpa using h⟩

theorem mapNonPrintable_survive (l : List Char) (c : Char)
    (h1 : 0x20 ≤ c.toNat ∧ c.toNat ≤ 0x7e) (hm : c ∈ l) : c ∈ mapNonPrintable l := by
  unfold mapNonPrintable
  refine List.mem_map.mpr ⟨c, hm, ?_⟩
  rw [if_pos (by
    simp only [Bool.or_eq_true, Bool.and_eq_true, decide_eq_true_eq]
    exact Or.inl h1)]

theorem collapseWs_survive : ∀ (l : List Char) (b : Bool) (c : Char), isJsSpace c = false →
    c ∈ l → c ∈ collapseWs b l := by
  intro l
  induction l with
  | nil => intro b c h hm; exact absurd hm (List.not_mem_nil c)
  | cons d ds ih =>
    intro b c h hm
    show c ∈ (if isJsSpace d = true then (if b = true then collapseWs true ds
      else ' ' :: collapseWs true ds) else d :: collapseWs false ds)
    by_cases hd : isJsSpace d = true
    · rw [if_pos hd]
      have hm2 : c ∈ ds := by
        rcases List.mem_cons.mp hm with rfl | hm2
        · rw [h] at hd; exact absurd hd Bool.false_ne_true
        · exact hm2
      by_cases hb : b = true
      · rw [if_pos hb]
        exact ih true c h hm2
      · rw [if_neg hb]
        exact List.mem_cons_of_mem _ (ih true c h hm2)
    · rw [if_neg hd]
      rcases List.mem_cons.mp hm with rfl | hm2
      · exact List.mem_cons_self _ _
      · exact List.mem_cons_of_mem _ (ih false c h hm2)

theorem dropJsSpace_survive : ∀ (l : List Char) (c : Char), isJsSpace c = false →
    c ∈ l → c ∈ dropJsSpace l := by
  intro l
  induction l with
  | nil => intro c h hm; exact absurd hm (List.not_mem_nil c)
  | cons d ds ih =>
    intro c h hm
    by_cases hd : isJsSpace d = true
    · rw [show dropJsSpace (d :: ds) = dropJsSpace ds from by simp [dropJsSpace, hd]]
      apply ih c h
      rcases List.mem_cons.mp hm with rfl | hm2
      · rw [h] at hd; exact absurd hd Bool.false_ne_true
      · exact hm2
    · rw [show dropJsSpace (d :: ds) = d :: ds from by simp [dropJsSpace, hd]]
      exact hm

theorem trimEnd_survive : ∀ (l : List Char) (c : Char), isJsSpace c = false →
    c ∈ l → c ∈ trimEnd l := by
  intro l
  induction l with
  | nil => intro c h hm; exact absurd hm (List.not_mem_nil c)
  | cons d ds ih =>
    intro c h hm
    by_cases hc : ((trimEnd ds).isEmpty && isJsSpace d) = true
    · exfalso
      rw [Bool.and_eq_true] at hc
      rcases List.mem_cons.mp hm with rfl | hm2
      · rw [h] at hc
        exact Bool.false_ne_true hc.2
      · have hin := ih c h hm2
        have h0 : trimEnd ds = [] := List.isEmpty_iff.mp hc.1
        rw [h0] at hin
        exact absurd hin (List.not_mem_nil c)
    · rw [show trimEnd (d :: ds) = d :: trimEnd ds from by simp [trimEnd, hc]]
      rcases List.mem_cons.mp hm with rfl | hm2
      · exact List.mem_cons_self _ _
      · exact List.mem_cons_of_mem _ (ih c h hm2)

/-- A printable, non-whitespace, non-backtick character whose lower-cased form
does not occur in the fence pattern survives the whole sanitizer. -/
theorem cleanText_survive (s : List Char) (c : Char)
    (h1 : 0x20 ≤ c.toNat ∧ c.toNat ≤ 0x7e) (h2 : isJsSpace c = false) (h3 : c ≠ '`')
    (h4 : lowerCh c ∉ ("```json".toList)) (hm : c ∈ s) : c ∈ cleanText s := by
  have hne : s ≠ [] := fun h => by subst h; exact absurd hm (List.not_mem_nil c)
  unfold cleanText
  rw [if_neg (by simpa [List.isEmpty_iff] using hne)]
  unfold cleanCore jsTrim stripFenceJson
  exact trimEnd_survive _ c h2 (dropJsSpace_survive _ c h2 (collapseWs_survive _ false c h2
    (mapNonPrintable_survive _ c h1 (stripBackticks_survive _ c h3
      (stripFence_survive (stripFenceJsonF s.length s).length _ le_rfl c h3
        (stripFenceJsonF_survive s.length s c h4 hm))))))

theorem cleanText_ne_nil_of_survivor (s : List Char) (c : Char)
    (h1 : 0x20 ≤ c.toNat ∧ c.toNat ≤ 0x7e) (h2 : isJsSpace c = false) (h3 : c ≠ '`')
    (h4 : lowerCh c ∉ ("```json".toList)) (hm : c ∈ s) : cleanText s ≠ [] := by
  intro hnil
  have := cleanText_survive s c h1 h2 h3 h4 hm
  rw [hnil] at this
  exact absurd this (List.not_mem_nil c)

/-! ## Round-trip development, part 9: fallback task texts (claim C7) -/

theorem suffix_trans {a b c : List Char} (h1 : ∃ t, t ++ a = b) (h2 : ∃ t, t ++ b = c) :
    ∃ t, t ++ a = c := by
  obtain ⟨t1, ht1⟩ := h1
  obtain ⟨t2, ht2⟩ := h2
  exact ⟨t2 ++ t1, by rw [List.append_assoc, ht1, ht2]⟩

theorem sfx_cons_drop (c d : Char) (r : List Char) :
    ∃ t, t ++ dropJsSpace (d :: r) = c :: d :: r := by
  obtain ⟨t0, ht0⟩ := dropJsSpace_suffix (d :: r)
  exact ⟨c :: t0, by rw [List.cons_append, ht0]⟩

theorem sfx_span_drop (L u : List Char) (hLu : ∃ t, t ++ L = u) (x d : Char) (r : List Char)
    (heq : (spanDigits L).2 = x :: d :: r) : ∃ t, t ++ dropJsSpace (d :: r) = u := by
  obtain ⟨t0, ht0⟩ := dropJsSpace_suffix (d :: r)
  have h1 : ∃ t, t ++ (x :: d :: r) = L := ⟨(spanDigits L).1, by rw [← heq]; exact spanDigits_parts L⟩
  exact suffix_trans ⟨t0, ht0⟩ (suffix_trans ⟨[x], rfl⟩ (suffix_trans h1 hLu))

theorem stripBulletNum_suffix (u : List Char) :
    ∃ w, stripBulletNum u = jsTrim w ∧ ∃ t, t ++ w = u := by
  unfold stripBulletNum
  dsimp only
  refine ⟨_, rfl, ?_⟩
  split
  · split
    · split
      · exact sfx_cons_drop _ _ _
      · exact ⟨[], rfl⟩
    · exact ⟨[], rfl⟩
  · split
    · next d2 r2 heq =>
      split
      · apply sfx_span_drop _ _ ?_ ')' d2 r2 heq
        split
        · split
          · exact sfx_cons_drop _ _ _
          · exact ⟨[], rfl⟩
        · exact ⟨[], rfl⟩
      · split
        · split
          · exact sfx_cons_drop _ _ _
          · exact ⟨[], rfl⟩
        · exact ⟨[], rfl⟩
    · next d2 r2 heq =>
      split
      · apply sfx_span_drop _ _ ?_ '.' d2 r2 heq
        split
        · split
          · exact sfx_cons_drop _ _ _
          · exact ⟨[], rfl⟩
        · exact ⟨[], rfl⟩
      · split
        · split
          · exact sfx_cons_drop _ _ _
          · exact ⟨[], rfl⟩
        · exact ⟨[], rfl⟩
    · split
      · split
        · exact sfx_cons_drop _ _ _
        · exact ⟨[], rfl⟩
      · exact ⟨[], rfl⟩

theorem cleanNF_suffix_jsTrim (u w : List Char) (hNF : CleanNF u) (hsuf : ∃ t, t ++ w = u) :
    CleanNF (jsTrim w) := by
  obtain ⟨hcls, hnds, _, _⟩ := hNF
  obtain ⟨t, ht⟩ := hsuf
  apply cleanNF_jsTrim
  · intro c hc
    refine ⟨⟨(hcls c ?_).1, (hcls c ?_).2.1⟩, (hcls c ?_).2.2⟩ <;>
      · rw [← ht]; exact List.mem_append_right t hc
  · rw [← ht] at hnds
    exact nds_append_right t w hnds

theorem stripBulletNum_cleanNF (u : List Char) (h : CleanNF u) :
    CleanNF (stripBulletNum u) := by
  obtain ⟨w, hw, hsuf⟩ := stripBulletNum_suffix u
  rw [hw]
  exact cleanNF_suffix_jsTrim u w h hsuf

/-- Every extracted fallback task is already in sanitizer normal form. -/
theorem extractedTasks_cleanNF (raw : List Char) :
    ∀ t ∈ extractedTasks raw, CleanNF t := by
  intro t ht
  unfold extractedTasks at ht
  have ht2 := List.mem_of_mem_take ht
  have ht3 := (List.mem_filter.mp ht2).1
  obtain ⟨u, hu, hut⟩ := List.mem_map.mp ht3
  have hu2 := (List.mem_filter.mp hu).1
  obtain ⟨line, _, hline⟩ := List.mem_map.mp hu2
  rw [← hut]
  apply stripBulletNum_cleanNF
  rw [← hline]
  exact cleanText_cleanNF line

/-- Sanitizing any crop-interpolated default task leaves a nonempty text. -/
theorem defaultTasks_clean_ne_nil (crop : List Char) :
    ∀ t ∈ defaultTasks crop, cleanText t ≠ [] := by
  intro t ht
  unfold defaultTasks at ht
  simp only [List.mem_cons, List.not_mem_nil, or_false] at ht
  rcases ht with rfl | rfl | rfl | rfl | rfl | rfl | rfl | rfl
  · exact cleanText_ne_nil_of_survivor _ 'P' (by decide) (by decide) (by decide) (by decide)
      (List.mem_append_left _ (List.mem_append_left crop (by decide)))
  · exact cleanText_ne_nil_of_survivor _ 'M' (by decide) (by decide) (by decide) (by decide)
      (List.mem_append_left _ (List.mem_append_left crop (by decide)))
  · decide
  · decide
  · decide
  · decide
  · decide
  · decide

/-! ## Round-trip development, part 10: reparsing the serialized canonical
plan (claim C7) -/

theorem mapIdx_map {α β γ : Type} (g : α → β) (f : ℕ → β → γ) (l : List α) :
    (l.map g).mapIdx f = l.mapIdx fun i a => f i (g a) := by
  rw [List.mapIdx_eq_enum_map, List.mapIdx_eq_enum_map, List.enum_map, List.map_map]
  apply List.map_congr_left
  intro a _
  rfl

theorem length_mapIdx {α β : Type} (f : ℕ → α → β) (l : List α) :
    (l.mapIdx f).length = l.length := by
  rw [List.mapIdx_eq_enum_map, List.length_map, List.enum_length]

theorem mapIdx_congr_mem {α β : Type} (l : List α) (f g : ℕ → α → β)
    (h : ∀ i a, a ∈ l → f i a = g i a) : l.mapIdx f = l.mapIdx g := by
  rw [List.mapIdx_eq_enum_map, List.mapIdx_eq_enum_map]
  apply List.map_congr_left
  intro pa hpa
  have hmem : pa.2 ∈ l := List.getElem?_mem (List.mem_enum_iff_getElem?.mp hpa)
  exact h pa.1 pa.2 hmem

theorem cleanTextVal_str (t : List Char) : cleanTextVal (some (.str t)) = cleanText t := by
  cases t <;> rfl

theorem cleanTextVal_cases (o : Option Json) :
    cleanTextVal o = [] ∨ ∃ u, cleanTextVal o = cleanText u := by
  cases o with
  | none => exact Or.inl rfl
  | some j =>
    by_cases h : jsTruthy j = true
    · right
      refine ⟨jsToString j, ?_⟩
      show (if jsTruthy j = true then cleanText (jsToString j) else []) = cleanText (jsToString j)
      rw [if_pos h]
    · left
      show (if jsTruthy j = true then cleanText (jsToString j) else []) = []
      rw [if_neg h]

theorem parseAction_task (i j : Nat) (a : PlanAction) :
    (parseAction i j (planActionToJson a)).task = cleanText a.task := by
  show sanitizePlainTextVal (jsGet (planActionToJson a) ("task".toList)) = cleanText a.task
  rw [show jsGet (planActionToJson a) ("task".toList) = some (.str a.task) from rfl]
  exact cleanTextVal_str a.task

theorem parseStep_actions (i : Nat) (s : PlanStep) :
    (parseStep i (planStepToJson s)).actions =
      ((JArr.ofList (s.actions.map planActionToJson)).toList.mapIdx
        (fun ai a => parseAction i ai a)).filter (fun a => !a.task.isEmpty) := rfl

theorem parseStep_actions_clean (i : Nat) (s : PlanStep)
    (hs : ∀ a ∈ s.actions, cleanText a.task ≠ []) :
    (parseStep i (planStepToJson s)).actions =
      s.actions.mapIdx (fun j a => parseAction i j (planActionToJson a)) := by
  rw [parseStep_actions, toList_ofList, mapIdx_map]
  apply List.filter_eq_self.mpr
  intro b hb
  obtain ⟨j, a, ha, hba⟩ := mem_mapIdx_exists hb
  rw [hba, parseAction_task]
  simpa [List.isEmpty_iff] using hs a ha

theorem parseStep_tasks (i : Nat) (s : PlanStep)
    (hs : ∀ a ∈ s.actions, cleanText a.task ≠ []) :
    ((parseStep i (planStepToJson s)).actions).map (fun pa => pa.task) =
      s.actions.map (fun a => cleanText a.task) := by
  rw [parseStep_actions_clean i s hs, mapIdx_map_comp]
  have hfe : (fun j a => (parseAction i j (planActionToJson a)).task) =
      (fun (_ : ℕ) a => cleanText (PlanAction.task a)) := by
    funext j a
    exact parseAction_task i j a
  rw [hfe, mapIdx_elem_only]

theorem parseStep_actions_ne (i : Nat) (s : PlanStep)
    (hs : ∀ a ∈ s.actions, cleanText a.task ≠ []) (hne : s.actions ≠ []) :
    (parseStep i (planStepToJson s)).actions ≠ [] := by
  rw [parseStep_actions_clean i s hs]
  cases hsa : s.actions with
  | nil => exact absurd hsa hne
  | cons a t =>
    intro hnil
    have := congrArg List.length hnil
    rw [length_mapIdx] at this
    simp at this

/-! ## Round-trip development, part 11: task texts of the canonical plan
(claim C7) -/

theorem normalizeStep_task_clean (idx : Nat) (v : Json) (r : PlanStep)
    (h : normalizeStep idx v = some r) :
    ∀ a ∈ r.actions, (∃ u, a.task = cleanText u) ∧ a.task ≠ [] := by
  simp only [normalizeStep] at h
  split at h
  · exact absurd h (by simp)
  · next hne =>
    rw [Option.some.injEq] at h
    subst h
    intro a ha
    simp only [] at ha
    split at ha
    · next xs hxs =>
      have hmf := List.mem_filter.mp ha
      have hne2 : a.task ≠ [] := by simpa [List.isEmpty_iff] using hmf.2
      obtain ⟨w, _, hwa⟩ := List.mem_map.mp hmf.1
      have htask : a.task = cleanTextVal (jsGet w ("task".toList)) := by
        rw [← hwa]
        rfl
      refine ⟨?_, hne2⟩
      rcases cleanTextVal_cases (jsGet w ("task".toList)) with hcv | ⟨u, hcv⟩
      · rw [htask] at hne2
        exact absurd hcv hne2
      · exact ⟨u, by rw [htask, hcv]⟩
    · exact absurd ha (List.not_mem_nil a)

theorem tasksClean_fallback (raw : List Char) (ctx : PlanContext) :
    ∀ st ∈ (buildFallbackPlan raw ctx).steps, st.actions ≠ [] ∧
      ∀ a ∈ st.actions, cleanText a.task ≠ [] := by
  intro st hst
  have hsteps : (buildFallbackPlan raw ctx).steps =
      ((if 4 ≤ (extractedTasks raw).length then extractedTasks raw
        else defaultTasks ctx.crop).take 8).mapIdx
        (fun idx task => fallbackStep ctx.crop idx task) := rfl
  rw [hsteps] at hst
  obtain ⟨idx, task, htask, hstv⟩ := mem_mapIdx_exists hst
  subst hstv
  constructor
  · simp [fallbackStep]
  · intro a ha
    have ha2 : a.task = task := by
      rw [List.mem_singleton.mp ha]
    rw [ha2]
    have htake := List.mem_of_mem_take htask
    by_cases h4 : 4 ≤ (extractedTasks raw).length
    · rw [if_pos h4] at htake
      have hNF := extractedTasks_cleanNF raw task htake
      rw [cleanText_of_cleanNF _ hNF]
      exact extractedTasks_ne_nil raw task htake
    · rw [if_neg h4] at htake
      exact defaultTasks_clean_ne_nil ctx.crop task htake

theorem normalizeStructuredPlan_tasks_clean (raw : List Char) (ctx : PlanContext) :
    (normalizeStructuredPlan raw ctx).steps ≠ [] ∧
    ∀ st ∈ (normalizeStructuredPlan raw ctx).steps,
      st.actions ≠ [] ∧ ∀ a ∈ st.actions, cleanText a.task ≠ [] := by
  have hfb : (buildFallbackPlan raw ctx).steps ≠ [] := (buildFallbackPlan_steps_good raw ctx).1
  have hfb2 := tasksClean_fallback raw ctx
  unfold normalizeStructuredPlan
  split
  · exact ⟨hfb, hfb2⟩
  · split
    · split
      · exact ⟨hfb, hfb2⟩
      · dsimp only
        split
        · exact ⟨hfb, hfb2⟩
        · next hne =>
          refine ⟨by simpa [List.isEmpty_iff] using hne, ?_⟩
          intro st hst
          simp only [] at hst
          have hro := List.reduceOption_mem_iff.mp hst
          obtain ⟨i, v, _, hv⟩ := mem_mapIdx_exists hro
          have hgood := normalizeStep_actions_good i v st hv.symm
          refine ⟨hgood.1, ?_⟩
          intro a ha
          obtain ⟨⟨u, hu⟩, hne2⟩ := normalizeStep_task_clean i v st hv.symm a ha
          rw [hu, cleanText_idem, ← hu]
          exact hne2
    · exact ⟨hfb, hfb2⟩

theorem normalizeStructuredPlan_tasks_fixed (raw : List Char) (ctx : PlanContext)
    (hp : parsedPathTaken raw) :
    ∀ st ∈ (normalizeStructuredPlan raw ctx).steps, ∀ a ∈ st.actions,
      cleanText a.task = a.task := by
  obtain ⟨j, stepsArr, hj, hsteps, hne1, hne2⟩ := hp
  unfold normalizeStructuredPlan
  rw [hj]
  simp only []
  rw [hsteps]
  simp only []
  rw [if_neg (by simpa [List.isEmpty_iff] using hne1)]
  rw [if_neg (by simpa [List.isEmpty_iff] using hne2)]
  intro st hst
  simp only [] at hst
  have hro := List.reduceOption_mem_iff.mp hst
  obtain ⟨i, v, _, hv⟩ := mem_mapIdx_exists hro
  intro a ha
  obtain ⟨⟨u, hu⟩, _⟩ := normalizeStep_task_clean i v st hv.symm a ha
  rw [hu, cleanText_idem]

/-! ## Round-trip development, part 12: assembly (claim C7) -/

theorem roundtrip_core (p : StructuredPlan) (hne : p.steps ≠ [])
    (hclean : ∀ st ∈ p.steps, st.actions ≠ [] ∧ ∀ a ∈ st.actions, cleanText a.task ≠ []) :
    ∃ q, parseStructuredPlan (renderJson (structuredPlanToJson p)) = some q ∧
      q.steps = p.steps.mapIdx fun i s => parseStep i (planStepToJson s) := by
  obtain ⟨xs, hxs⟩ : ∃ xs, structuredPlanToJson p = Json.obj xs := ⟨_, rfl⟩
  have hrender_ne : (renderJson (structuredPlanToJson p)).isEmpty = false := by
    rw [hxs, show renderJson (.obj xs) = '\x7b' :: (renderJMembers xs ++ ['\x7d'])
      from by simp [renderJson]]
    rfl
  have hext : extractLikelyJson (renderJson (structuredPlanToJson p)) =
      some (structuredPlanToJson p) := by
    rw [hxs]
    exact extractJsonObject_render xs
  have hsteps : jsGet (structuredPlanToJson p) ("steps".toList) =
      some (.arr (JArr.ofList (p.steps.map planStepToJson))) := rfl
  have hmapne : p.steps.map planStepToJson ≠ [] := by
    intro hnil
    exact hne (List.map_eq_nil_iff.mp hnil)
  have hfid : ((p.steps.map planStepToJson).mapIdx fun i st => parseStep i st).filter
      (fun s => !s.actions.isEmpty) =
      p.steps.mapIdx fun i s => parseStep i (planStepToJson s) := by
    rw [mapIdx_map]
    apply List.filter_eq_self.mpr
    intro st hst
    obtain ⟨i, s, hsmem, hstv⟩ := mem_mapIdx_exists hst
    rw [hstv]
    have h1 := parseStep_actions_ne i s (hclean s hsmem).2 (hclean s hsmem).1
    simpa [List.isEmpty_iff] using h1
  have hstepsne : (p.steps.mapIdx fun i s => parseStep i (planStepToJson s)) ≠ [] := by
    intro hnil
    have hl := congrArg List.length hnil
    rw [length_mapIdx] at hl
    simp only [List.length_nil] at hl
    exact hne (List.length_eq_zero.mp hl)
  unfold parseStructuredPlan
  rw [if_neg (by rw [hrender_ne]; exact Bool.false_ne_true)]
  rw [hext]
  simp only []
  rw [hsteps]
  simp only []
  rw [toList_ofList]
  rw [if_neg (by simpa [List.isEmpty_iff] using hmapne)]
  rw [hfid]
  rw [if_neg (by simpa [List.isEmpty_iff] using hstepsne)]
  exact ⟨_, rfl, rfl⟩

/-- The full round-trip behaviour of serialize-then-reparse on a canonical
plan: the reparse succeeds, keeps every step, maps each task text through the
sanitizer, and on the parsed extraction path changes nothing. -/
theorem roundtrip_spec (raw : List Char) (ctx : PlanContext) :
    ∃ q, parseStructuredPlan (renderJson (structuredPlanToJson
        (normalizeStructuredPlan raw ctx))) = some q ∧
      q.steps.length = (normalizeStructuredPlan raw ctx).steps.length ∧
      parsedTasksOf q = (tasksOf (normalizeStructuredPlan raw ctx)).map
        (fun ts => ts.map sanitizePlainText) ∧
      (parsedPathTaken raw → parsedTasksOf q = tasksOf (normalizeStructuredPlan raw ctx)) := by
  obtain ⟨hne, hclean⟩ := normalizeStructuredPlan_tasks_clean raw ctx
  obtain ⟨q, hq, hqsteps⟩ := roundtrip_core (normalizeStructuredPlan raw ctx) hne hclean
  have htasks : parsedTasksOf q =
      (normalizeStructuredPlan raw ctx).steps.map
        (fun s => s.actions.map fun a => cleanText a.task) := by
    unfold parsedTasksOf
    rw [hqsteps, mapIdx_map_comp]
    have hcg := mapIdx_congr_mem (normalizeStructuredPlan raw ctx).steps
      (fun i s => ((parseStep i (planStepToJson s)).actions.map fun a => a.task))
      (fun (_ : ℕ) s => s.actions.map fun a => cleanText a.task)
      (fun i s hs => parseStep_tasks i s (hclean s hs).2)
    rw [hcg, mapIdx_elem_only]
  refine ⟨q, hq, ?_, ?_, ?_⟩
  · rw [hqsteps, length_mapIdx]
  · rw [htasks]
    unfold tasksOf
    rw [List.map_map]
    apply List.map_congr_left
    intro s _
    show s.actions.map (fun a => cleanText a.task) =
      (s.actions.map fun a => a.task).map sanitizePlainText
    rw [List.map_map]
    rfl
  · intro hpath
    rw [htasks]
    unfold tasksOf
    apply List.map_congr_left
    intro s hs
    apply List.map_congr_left
    intro a ha
    exact normalizeStructuredPlan_tasks_fixed raw ctx hpath s hs a ha

/-! ## Claim C7 — the JSON round trip -/

/-- C7 (corrected): serializing the canonical plan with `JSON.stringify` and
re-parsing through `parseStructuredPlan` always succeeds, loses no step
(the step counts agree), and maps each action task text through
`sanitizePlainText`; when the canonical plan itself came from successfully
extracted JSON (`parsedPathTaken`), every task text is already in sanitizer
normal form and the round trip rewrites no task at all.  The unconditional
task-identity of the frozen claim fails only for synthesized fallback plans
whose crop-interpolated default tasks are not sanitizer-clean. -/
theorem structured_plan_roundtrip (raw : List Char) (ctx : PlanContext) :
    ∃ q, parseStructuredPlan (renderJson (structuredPlanToJson
        (normalizeStructuredPlan raw ctx))) = some q ∧
      q.steps.length = (normalizeStructuredPlan raw ctx).steps.length ∧
      parsedTasksOf q = (tasksOf (normalizeStructuredPlan raw ctx)).map
        (fun ts => ts.map sanitizePlainText) ∧
      (parsedPathTaken raw → parsedTasksOf q = tasksOf (normalizeStructuredPlan raw ctx)) :=
  roundtrip_spec raw ctx

/-- C7, counterexample to the frozen claim: with crop name `"A  B"` (a double
space) and an unextractable raw text, the fallback plan interpolates the crop
into its default task texts; re-parsing the serialized plan collapses the
double space, so a task is rewritten. -/
theorem structured_plan_roundtrip_cex :
    ∃ q, parseStructuredPlan (renderJson (structuredPlanToJson
        (normalizeStructuredPlan [] ⟨"A  B".toList, 1, []⟩))) = some q ∧
      parsedTasksOf q ≠ tasksOf (normalizeStructuredPlan [] ⟨"A  B".toList, 1, []⟩) := by
  obtain ⟨q, hq, _, htasks, _⟩ := roundtrip_spec [] ⟨"A  B".toList, 1, []⟩
  refine ⟨q, hq, ?_⟩
  rw [htasks]
  decide

end AgriMarket
